import Mathlib

/-!
# Verification of the `rush` shell parsing / word-expansion engine

Shallow embedding of `src/posh-core/src/engine/parser/ast.rs` (the
syntax-tree data model, the expansion resolver, the recursive-descent
parser and the word scanner), together with theorems settling the
specification claims.

Modelling conventions:
* Rust `String` text is modelled as `List Char` (`Str`).  The source
  indexes text by bytes while the word scanner counts characters; the two
  coincide on ASCII input, and all range arithmetic is carried out on
  character lists.
* Panics (`panic!`, `todo!`, `unreachable!`, out-of-bounds
  `String::replace_range`) are modelled as `Except.error (.panicked msg)`;
  returned `Err(Error::Unimplemented(..))` values are modelled as
  `Except.error (.unimplemented msg)`.  The `Error` enum itself lives in
  `src/posh-core/src/error.rs`, which is not part of the sources; only the
  `Unimplemented` variant is used by the code under study.
* External collaborators (the process environment snapshot and the
  home-directory resolver) are passed in explicitly as parameters, as the
  specification's "binding set" and "home-directory resolver" describe.
-/

set_option maxHeartbeats 1000000

namespace Rush

/-- Text, as a list of characters (ASCII-faithful model of Rust `String`). -/
abbrev Str := List Char

/-- Runtime outcome classification for the embedded code.  `panicked`
models process aborts (`panic!`/`todo!`/`unreachable!`/ out-of-bounds
`replace_range`), `unimplemented` models a returned
`Err(Error::Unimplemented(..))` value, and `outOfFuel` is the artefact of
bounding the (in principle unbounded) command-substitution recursion. -/
inductive RunError where
  | panicked (msg : String)
  | unimplemented (msg : String)
  | outOfFuel
deriving DecidableEq, Repr

mutual

/-- `SyntaxTree` from ast.rs: an ordered sequence of command types. -/
inductive SyntaxTree where
  | mk (commands : List CommandType)

/-- `CommandType` from ast.rs. -/
inductive CommandType where
  | single (cmd : Command)
  | pipeline (cmds : List Command)

/-- `Command` from ast.rs. -/
inductive Command where
  | mk (name : Word) (prefixes : List Meta) (suffixes : List Meta)

/-- `Word` from ast.rs: owned text plus scanned expansions. -/
inductive Word where
  | mk (name : Str) (expansions : List Expansion)

/-- `Meta` from ast.rs. -/
inductive Meta where
  | redirect (r : Redirect)
  | word (w : Word)
  | assignment (dst val : Word)

/-- `Redirect` from ast.rs. -/
inductive Redirect where
  | output (src : Option Word) (tgt : Word) (append : Bool)
  | input (tgt : Word)

/-- `Expansion` from ast.rs; ranges are inclusive `(start, end)` pairs
mirroring `RangeInclusive<usize>`. -/
inductive Expansion where
  | parameter (s e : Nat) (name : Str)
  | command (s e : Nat) (ast : SyntaxTree)
  | glob (s e : Nat) (pattern : Str) (recursive : Bool)
  | tilde (index : Nat)

end

def SyntaxTree.commands : SyntaxTree → List CommandType
  | .mk cs => cs

def Command.name : Command → Word
  | .mk n _ _ => n

def Command.prefixes : Command → List Meta
  | .mk _ p _ => p

def Command.suffixes : Command → List Meta
  | .mk _ _ s => s

def Word.name : Word → Str
  | .mk n _ => n

def Word.expansions : Word → List Expansion
  | .mk _ es => es

/-! ## The expansion resolver (`expand_word` and helpers) -/

/-- Model of Rust `String::replace_range(s..=e, repl)`: `none` models the
panic on an out-of-bounds or inverted range. -/
def replaceRangeIncl (nm : Str) (s e : Nat) (repl : Str) : Option Str :=
  if s ≤ e + 1 ∧ e + 1 ≤ nm.length then
    some (nm.take s ++ repl ++ nm.drop (e + 1))
  else none

/-- The inner `for (var, val) in vars.iter()` loop of the
`Expansion::Parameter` arm of `expand_word`: every binding whose name
matches triggers a `replace_range` at the stored range and records the
expansion index for removal.  `none` models a `replace_range` panic. -/
def paramLoop :
    List (Str × Str) → Str → Nat → Nat → Nat → Str → List Nat →
      Option (Str × List Nat)
  | [], _, _, _, _, nm, tr => some (nm, tr)
  | (v, val) :: rest, pname, s, e, i, nm, tr =>
    if v = pname then
      match replaceRangeIncl nm s e val with
      | some nm' => paramLoop rest pname s e i nm' (tr ++ [i])
      | none => none
    else
      paramLoop rest pname s e i nm tr

/-- The main loop of `expand_word`, iterating
`word.expansions.iter().enumerate().rev()` (the argument list is the
already-reversed enumeration), rewriting the word text and collecting the
indices to remove. -/
def expandLoop (home : Str) (vars : List (Str × Str)) :
    List (Nat × Expansion) → Str → List Nat →
      Except RunError (Str × List Nat)
  | [], nm, tr => .ok (nm, tr)
  | (i, ex) :: rest, nm, tr =>
    match ex with
    | .tilde idx =>
      match replaceRangeIncl nm idx idx home with
      | some nm' => expandLoop home vars rest nm' (tr ++ [i])
      | none => .error (.panicked "replace_range out of bounds")
    | .parameter s e pname =>
      match paramLoop vars pname s e i nm tr with
      | some (nm', tr') => expandLoop home vars rest nm' tr'
      | none => .error (.panicked "replace_range out of bounds")
    | .command _ _ _ =>
      .error (.unimplemented "command expansions are not yet implemented")
    | .glob _ _ _ _ =>
      .error (.unimplemented "glob expansions are not yet implemented")

/-- `Vec::sort` on the collected indices (ascending insertion sort). -/
def insertNat (n : Nat) : List Nat → List Nat
  | [] => [n]
  | m :: rest => if n ≤ m then n :: m :: rest else m :: insertNat n rest

def sortNat : List Nat → List Nat
  | [] => []
  | n :: rest => insertNat n (sortNat rest)

/-- `Vec::dedup`: removes consecutive duplicates. -/
def dedupConsec : List Nat → List Nat
  | [] => []
  | [n] => [n]
  | n :: m :: rest =>
    if n = m then dedupConsec (m :: rest) else n :: dedupConsec (m :: rest)

/-- `to_remove.sort(); to_remove.dedup(); for i in to_remove.into_iter().rev()
{ word.expansions.remove(i); }` from `expand_word`. -/
def removeIndices (es : List Expansion) (idxs : List Nat) : List Expansion :=
  ((dedupConsec (sortNat idxs)).reverse).foldl (fun acc i => acc.eraseIdx i) es

/-- `expand_word` from ast.rs.  `home` stands for the `home_dir()`
collaborator (the home-directory resolver of the spec), `vars` is the
binding set. -/
def expandWord (home : Str) (vars : List (Str × Str)) (w : Word) :
    Except RunError Word :=
  if w.expansions.isEmpty then .ok w
  else
    match expandLoop home vars ((w.expansions.enum).reverse) w.name [] with
    | .error err => .error err
    | .ok (nm, tr) => .ok (.mk nm (removeIndices w.expansions tr))

/-- `expand_meta` from ast.rs. -/
def expandMeta (home : Str) (vars : List (Str × Str)) :
    Meta → Except RunError Meta
  | .redirect (.output (some src) tgt app) => do
    let src' ← expandWord home vars src
    let tgt' ← expandWord home vars tgt
    pure (.redirect (.output (some src') tgt' app))
  | .redirect (.output none tgt app) => do
    let tgt' ← expandWord home vars tgt
    pure (.redirect (.output none tgt' app))
  | .redirect (.input tgt) => do
    let tgt' ← expandWord home vars tgt
    pure (.redirect (.input tgt'))
  | .word w => do
    pure (.word (← expandWord home vars w))
  | .assignment dst val => do
    pure (.assignment (← expandWord home vars dst) (← expandWord home vars val))

/-- Whether a `Meta` is an `Assignment` (the `filter_map` in `Command::vars`). -/
def Meta.isAssignment : Meta → Bool
  | .assignment _ _ => true
  | _ => false

/-- First index with a matching name, `vars.iter().position(|(v, _)| v == &var.name)`. -/
def removeFirstByName (pname : Str) : List (Str × Str) → List (Str × Str)
  | [] => []
  | (v, val) :: rest =>
    if v = pname then rest else (v, val) :: removeFirstByName pname rest

/-- The per-assignment upsert step of `Command::vars`: expand the
assignment against the accumulated bindings and, on success, remove any
existing entry with the same name and append a fresh one; on failure
(`if let Ok(..)` mismatch) the assignment is skipped. -/
def varsStep (home : Str) (vars : List (Str × Str)) (m : Meta) :
    List (Str × Str) :=
  match expandMeta home vars m with
  | .ok (.assignment dst val) =>
    removeFirstByName dst.name vars ++ [(dst.name, val.name)]
  | _ => vars

/-- `Command::vars` from ast.rs.  `env` stands for the
`std::env::vars()` snapshot collaborator. -/
def Command.vars (home : Str) (env : List (Str × Str)) (cmd : Command) :
    List (Str × Str) :=
  (cmd.prefixes.filter Meta.isAssignment).foldl (varsStep home) env

/-- `Command::redirections` from ast.rs: fold over prefixes then suffixes,
each matching redirect overwriting its slot. -/
def redirLoop :
    List Meta → Option Redirect → Option Redirect → Option Redirect →
      Option Redirect × Option Redirect × Option Redirect
  | [], i, o, e => (i, o, e)
  | .redirect r :: rest, i, o, e =>
    match r with
    | .output none _ _ => redirLoop rest i (some r) e
    | .output (some src) _ _ =>
      if src.name = "1".toList then redirLoop rest i (some r) e
      else if src.name = "2".toList then redirLoop rest i o (some r)
      else redirLoop rest i o e
    | .input _ => redirLoop rest (some r) o e
  | _ :: rest, i, o, e => redirLoop rest i o e

def Command.redirections (cmd : Command) :
    Option Redirect × Option Redirect × Option Redirect :=
  redirLoop (cmd.prefixes ++ cmd.suffixes) none none none

/-! ## Expansion range bookkeeping

`startIdx`/`endIdx` read off the text range an expansion's resolution
touches: the inclusive `range` field for parameter/command/glob
expansions, and the single `index` position for tilde expansions. -/

def Expansion.startIdx : Expansion → Nat
  | .parameter s _ _ => s
  | .command s _ _ => s
  | .glob s _ _ _ => s
  | .tilde i => i

def Expansion.endIdx : Expansion → Nat
  | .parameter _ e _ => e
  | .command _ e _ => e
  | .glob _ e _ _ => e
  | .tilde i => i

def Expansion.isCmdOrGlob : Expansion → Bool
  | .command _ _ _ => true
  | .glob _ _ _ _ => true
  | _ => false

/-- The §3 data-model invariant on a word: expansion ranges are
well-formed (`start ≤ end`), in bounds, non-overlapping and monotonically
increasing in scan order.  `lo` is the lower bound for the next range. -/
def rangesOK (lo : Nat) : List Expansion → Nat → Bool
  | [], _ => true
  | ex :: rest, len =>
    decide (lo ≤ ex.startIdx) && decide (ex.startIdx ≤ ex.endIdx) &&
      decide (ex.endIdx < len) && rangesOK (ex.endIdx + 1) rest len

/-- Invariant for the (reversed, highest-range-first) processing list of
`expand_word`: each entry is in bounds for the current text length, and
the remaining (lower) entries are bounded by its start index. -/
def descOK : List (Nat × Expansion) → Nat → Bool
  | [], _ => true
  | (_, ex) :: rest, len =>
    decide (ex.startIdx ≤ ex.endIdx) && decide (ex.endIdx < len) &&
      descOK rest ex.startIdx

/-- The bound that `descOK` imposes on an element appended at the end. -/
def lastLB : List (Nat × Expansion) → Nat → Nat
  | [], len => len
  | (_, ex) :: rest, _ => lastLB rest ex.startIdx

/-- The bound `descOK` starts from, read off the underlying ascending list. -/
def headLB : List Expansion → Nat → Nat
  | [], len => len
  | ex :: _, _ => ex.startIdx

/-- First binding with a matching name. -/
def lookupFirst (pname : Str) : List (Str × Str) → Option Str
  | [] => none
  | (v, val) :: rest => if v = pname then some val else lookupFirst pname rest

/-- Did the computation abort (model of a Rust panic)? -/
def isPanicRes {α : Type} : Except RunError α → Bool
  | .error (.panicked _) => true
  | _ => false

/-- Did the computation return `Err(Error::Unimplemented(..))`? -/
def isUnimplRes {α : Type} : Except RunError α → Bool
  | .error (.unimplemented _) => true
  | _ => false

theorem descOK_mono {L : List (Nat × Expansion)} {a b : Nat}
    (h : descOK L a = true) (hab : a ≤ b) : descOK L b = true := by
  cases L with
  | nil => rfl
  | cons p rest =>
    obtain ⟨i, ex⟩ := p
    simp only [descOK, Bool.and_eq_true, decide_eq_true_eq] at h ⊢
    exact ⟨⟨h.1.1, lt_of_lt_of_le h.1.2 hab⟩, h.2⟩

theorem lastLB_append_single (A : List (Nat × Expansion)) (k : Nat)
    (f : Expansion) (len : Nat) :
    lastLB (A ++ [(k, f)]) len = f.startIdx := by
  induction A generalizing len with
  | nil => rfl
  | cons p rest ih =>
    obtain ⟨i, ex⟩ := p
    simpa [lastLB] using ih ex.startIdx

theorem descOK_append_single {A : List (Nat × Expansion)} {len k : Nat}
    {f : Expansion} (hA : descOK A len = true)
    (h1 : f.startIdx ≤ f.endIdx) (h2 : f.endIdx < lastLB A len) :
    descOK (A ++ [(k, f)]) len = true := by
  induction A generalizing len with
  | nil =>
    simp only [lastLB] at h2
    simp only [List.nil_append, descOK, Bool.and_eq_true, decide_eq_true_eq]
    exact ⟨⟨h1, h2⟩, trivial⟩
  | cons p rest ih =>
    obtain ⟨i, ex⟩ := p
    simp only [descOK, Bool.and_eq_true, decide_eq_true_eq] at hA
    simp only [List.cons_append, descOK, Bool.and_eq_true, decide_eq_true_eq]
    exact ⟨hA.1, ih hA.2 (by simpa [lastLB] using h2)⟩

theorem lastLB_enumFrom_reverse (es : List Expansion) (j len : Nat) :
    lastLB ((List.enumFrom j es).reverse) len = headLB es len := by
  cases es with
  | nil => rfl
  | cons f rest =>
    simp [List.enumFrom, List.reverse_cons, lastLB_append_single, headLB]

theorem rangesOK_headLB {es : List Expansion} {lo len : Nat}
    (h : rangesOK lo es len = true) : lo ≤ headLB es len ∨ es = [] := by
  cases es with
  | nil => exact Or.inr rfl
  | cons f rest =>
    simp only [rangesOK, Bool.and_eq_true, decide_eq_true_eq] at h
    exact Or.inl h.1.1.1

theorem rangesOK_descOK {es : List Expansion} {lo len : Nat}
    (h : rangesOK lo es len = true) :
    ∀ j, descOK ((List.enumFrom j es).reverse) len = true := by
  induction es generalizing lo with
  | nil => intro j; rfl
  | cons f rest ih =>
    intro j
    simp only [rangesOK, Bool.and_eq_true, decide_eq_true_eq] at h
    obtain ⟨⟨⟨hlo, hse⟩, hel⟩, hrest⟩ := h
    have hd := ih hrest (j + 1)
    have hlast : f.endIdx < lastLB ((List.enumFrom (j + 1) rest).reverse) len := by
      rw [lastLB_enumFrom_reverse]
      rcases rangesOK_headLB hrest with hle | hnil
      · omega
      · subst hnil; simpa [headLB]
    simpa [List.enumFrom, List.reverse_cons] using
      descOK_append_single hd hse hlast

/-! ## `paramLoop` characterization -/

theorem lookupFirst_none_no_match {vars : List (Str × Str)} {pname : Str}
    (h : lookupFirst pname vars = none) : ∀ p ∈ vars, p.1 ≠ pname := by
  induction vars with
  | nil => intro p hp; cases hp
  | cons q rest ih =>
    obtain ⟨v, val⟩ := q
    intro p hp
    by_cases hv : v = pname
    · simp [lookupFirst, hv] at h
    · simp only [lookupFirst, if_neg hv] at h
      rcases List.mem_cons.mp hp with rfl | hmem
      · exact hv
      · exact ih h p hmem

theorem paramLoop_no_match {vars : List (Str × Str)} {pname : Str}
    (h : ∀ p ∈ vars, p.1 ≠ pname) (s e i : Nat) (nm : Str) (tr : List Nat) :
    paramLoop vars pname s e i nm tr = some (nm, tr) := by
  induction vars with
  | nil => rfl
  | cons q rest ih =>
    obtain ⟨v, val⟩ := q
    have hv : v ≠ pname := h (v, val) (List.mem_cons_self _ _)
    simp only [paramLoop, if_neg hv]
    exact ih (fun p hp => h p (List.mem_cons_of_mem _ hp))

theorem paramLoop_found {vars : List (Str × Str)} {pname val : Str}
    (hnd : (vars.map Prod.fst).Nodup)
    (hl : lookupFirst pname vars = some val)
    {s e : Nat} {nm : Str} (hse : s ≤ e + 1) (hel : e + 1 ≤ nm.length)
    (i : Nat) (tr : List Nat) :
    paramLoop vars pname s e i nm tr =
      some (nm.take s ++ val ++ nm.drop (e + 1), tr ++ [i]) := by
  induction vars with
  | nil => simp [lookupFirst] at hl
  | cons q rest ih =>
    obtain ⟨v, w⟩ := q
    simp only [List.map_cons, List.nodup_cons] at hnd
    by_cases hv : v = pname
    · simp only [lookupFirst, if_pos hv] at hl
      obtain rfl : val = w := by injection hl with h; exact h.symm
      have hrepl : replaceRangeIncl nm s e val =
          some (nm.take s ++ val ++ nm.drop (e + 1)) := by
        simp [replaceRangeIncl, hse, hel]
      simp only [paramLoop, if_pos hv, hrepl]
      refine paramLoop_no_match ?_ s e i _ _
      intro p hp hpn
      apply hnd.1
      rw [hv, ← hpn]
      exact List.mem_map_of_mem Prod.fst hp
    · simp only [lookupFirst, if_neg hv] at hl
      simp only [paramLoop, if_neg hv]
      exact ih hnd.2 hl

/-- After a splice at `[s, e]` the first `s` positions survive. -/
theorem splice_length_ge {nm repl : Str} {s e : Nat}
    (hse : s ≤ e + 1) (hel : e + 1 ≤ nm.length) :
    s ≤ (nm.take s ++ repl ++ nm.drop (e + 1)).length := by
  simp only [List.length_append, List.length_take]
  omega

/-! ## `expand_word` never touches text out of bounds
(given distinct binding names and well-formed ranges) -/

theorem expandLoop_no_panic (home : Str) {vars : List (Str × Str)}
    (hnd : (vars.map Prod.fst).Nodup) :
    ∀ (L : List (Nat × Expansion)) (nm : Str) (tr : List Nat),
      descOK L nm.length = true →
      isPanicRes (expandLoop home vars L nm tr) = false := by
  intro L
  induction L with
  | nil => intro nm tr _; rfl
  | cons p rest ih =>
    intro nm tr h
    obtain ⟨i, ex⟩ := p
    simp only [descOK, Bool.and_eq_true, decide_eq_true_eq] at h
    obtain ⟨⟨hse, hel⟩, hrest⟩ := h
    cases ex with
    | tilde idx =>
      simp only [Expansion.startIdx, Expansion.endIdx] at hse hel hrest
      have hel' : idx + 1 ≤ nm.length := hel
      have hrepl : replaceRangeIncl nm idx idx home =
          some (nm.take idx ++ home ++ nm.drop (idx + 1)) := by
        simp [replaceRangeIncl, hel', Nat.le_succ]
      rw [expandLoop, hrepl]
      exact ih _ _ (descOK_mono hrest (splice_length_ge (by omega) (by omega)))
    | parameter s e pname =>
      simp only [Expansion.startIdx, Expansion.endIdx] at hse hel hrest
      cases hl : lookupFirst pname vars with
      | none =>
        rw [expandLoop, paramLoop_no_match (lookupFirst_none_no_match hl)]
        exact ih _ _ (descOK_mono hrest (by omega))
      | some val =>
        rw [expandLoop, paramLoop_found hnd hl (by omega) (by omega)]
        exact ih _ _ (descOK_mono hrest (splice_length_ge (by omega) hel))
    | command s e ast => rw [expandLoop]; rfl
    | glob s e pat r => rw [expandLoop]; rfl

theorem expandLoop_unimpl (home : Str) {vars : List (Str × Str)}
    (hnd : (vars.map Prod.fst).Nodup) :
    ∀ (L : List (Nat × Expansion)) (nm : Str) (tr : List Nat),
      descOK L nm.length = true →
      L.any (fun p => p.2.isCmdOrGlob) = true →
      isUnimplRes (expandLoop home vars L nm tr) = true := by
  intro L
  induction L with
  | nil => intro nm tr _ hany; cases hany
  | cons p rest ih =>
    intro nm tr h hany
    obtain ⟨i, ex⟩ := p
    simp only [descOK, Bool.and_eq_true, decide_eq_true_eq] at h
    obtain ⟨⟨hse, hel⟩, hrest⟩ := h
    cases ex with
    | tilde idx =>
      simp only [Expansion.startIdx, Expansion.endIdx] at hse hel hrest
      simp only [List.any_cons, Expansion.isCmdOrGlob, Bool.false_or] at hany
      have hel' : idx + 1 ≤ nm.length := hel
      have hrepl : replaceRangeIncl nm idx idx home =
          some (nm.take idx ++ home ++ nm.drop (idx + 1)) := by
        simp [replaceRangeIncl, hel', Nat.le_succ]
      rw [expandLoop, hrepl]
      exact ih _ _ (descOK_mono hrest (splice_length_ge (by omega) (by omega)))
        hany
    | parameter s e pname =>
      simp only [Expansion.startIdx, Expansion.endIdx] at hse hel hrest
      simp only [List.any_cons, Expansion.isCmdOrGlob, Bool.false_or] at hany
      cases hl : lookupFirst pname vars with
      | none =>
        rw [expandLoop, paramLoop_no_match (lookupFirst_none_no_match hl)]
        exact ih _ _ (descOK_mono hrest (by omega)) hany
      | some val =>
        rw [expandLoop, paramLoop_found hnd hl (by omega) (by omega)]
        exact ih _ _ (descOK_mono hrest (splice_length_ge (by omega) hel)) hany
    | command s e ast => rw [expandLoop]; rfl
    | glob s e pat r => rw [expandLoop]; rfl

theorem any_enumFrom (es : List Expansion) (j : Nat) (f : Expansion → Bool) :
    (List.enumFrom j es).any (fun p => f p.2) = es.any f := by
  induction es generalizing j with
  | nil => rfl
  | cons a rest ih => simp [List.enumFrom, ih]

/-! ## Claim C1 -/

/-- **C1, counterexample.**  The word `$x` is well-formed (a single
in-bounds parameter range `0..=1`), yet against the binding set
`[("x", ""), ("x", "B")]` — duplicates that the spec explicitly admits —
the second matching binding re-applies `replace_range` at the original
range `0..=1` on the already-shrunk text `""`, a range outside the
current text bounds; resolution aborts instead of staying in bounds. -/
theorem expandWord_dup_binding_out_of_bounds :
    rangesOK 0 [.parameter 0 1 "x".toList] ("$x".toList).length = true ∧
    expandWord [] [("x".toList, []), ("x".toList, "B".toList)]
        (.mk "$x".toList [.parameter 0 1 "x".toList]) =
      .error (.panicked "replace_range out of bounds") :=
  ⟨by decide, rfl⟩

/-- **C1, amended.**  `expand_word` iterates the expansions in reverse
scan order (the fold is literally over `expansions.enum.reverse`), and —
provided the word's ranges satisfy the §3 data-model invariant and the
binding set carries pairwise-distinct names — no `replace_range` ever
operates outside the bounds of the word's current text (no panic-modelled
outcome is reachable). -/
theorem expandWord_reverse_order_in_bounds (home : Str)
    (vars : List (Str × Str)) (w : Word)
    (hwf : rangesOK 0 w.expansions w.name.length = true)
    (hnd : (vars.map Prod.fst).Nodup) :
    isPanicRes (expandWord home vars w) = false := by
  unfold expandWord
  cases hemp : w.expansions.isEmpty with
  | true => rfl
  | false =>
    have hd : descOK ((w.expansions.enum).reverse) w.name.length = true := by
      have := rangesOK_descOK hwf 0
      simpa [List.enum] using this
    have hloop := expandLoop_no_panic home hnd
      ((w.expansions.enum).reverse) w.name [] hd
    cases hres : expandLoop home vars ((w.expansions.enum).reverse) w.name [] with
    | error err =>
      rw [hres] at hloop
      cases err with
      | panicked msg => simp [isPanicRes] at hloop
      | unimplemented msg => simp [hres, isPanicRes]
      | outOfFuel => simp [hres, isPanicRes]
    | ok pr => obtain ⟨nm, tr⟩ := pr; simp [hres, isPanicRes]

/-- Witness for `expandWord_reverse_order_in_bounds` at a concrete input. -/
theorem expandWord_reverse_order_in_bounds_witness :
    isPanicRes (expandWord "h".toList [("x".toList, "val".toList)]
        (.mk "$x".toList [.parameter 0 1 "x".toList])) = false :=
  expandWord_reverse_order_in_bounds "h".toList _ _ (by decide) (by decide)

/-! ## Claim C4 -/

/-- **C4, counterexample.**  With duplicate bindings
`[("x", "hello"), ("x", "Z")]` the word `$x` does *not* resolve to the
last match `Z`: every matching binding is applied in turn at the original
range against the evolving text, yielding `Zllo`. -/
theorem expandWord_dup_binding_not_last_match :
    expandWord [] [("x".toList, "hello".toList), ("x".toList, "Z".toList)]
        (.mk "$x".toList [.parameter 0 1 "x".toList]) =
      .ok (.mk "Zllo".toList []) ∧
    "Zllo".toList ≠ "Z".toList :=
  ⟨rfl, by decide⟩

/-- **C4, amended.**  For a word with a single in-bounds `Parameter`
expansion and a binding set with pairwise-distinct names: if the name is
bound, the range is replaced by the bound value's text and the expansion
is removed; if the name is unbound, the word is returned unchanged — the
expansion stays recorded and no error is produced.  (With duplicate
names the code instead applies every matching binding in turn at the
original range, as the counterexample shows.) -/
theorem expandWord_parameter_lookup (home : Str) (vars : List (Str × Str))
    (nm pname : Str) (s e : Nat)
    (hnd : (vars.map Prod.fst).Nodup) (hse : s ≤ e) (hel : e < nm.length) :
    (∀ val, lookupFirst pname vars = some val →
      expandWord home vars (.mk nm [.parameter s e pname]) =
        .ok (.mk (nm.take s ++ val ++ nm.drop (e + 1)) [])) ∧
    (lookupFirst pname vars = none →
      expandWord home vars (.mk nm [.parameter s e pname]) =
        .ok (.mk nm [.parameter s e pname])) := by
  constructor
  · intro val hl
    have hpl := @paramLoop_found vars pname val hnd hl s e nm
      (by omega) (by omega) 0 []
    simp only [expandWord, Word.expansions, Word.name, List.isEmpty_cons,
      List.enum, List.enumFrom, List.reverse_cons, List.reverse_nil,
      List.nil_append, expandLoop, hpl]
    rfl
  · intro hl
    have hpl := paramLoop_no_match (lookupFirst_none_no_match hl) s e 0 nm []
    simp only [expandWord, Word.expansions, Word.name, List.isEmpty_cons,
      List.enum, List.enumFrom, List.reverse_cons, List.reverse_nil,
      List.nil_append, expandLoop, hpl]
    rfl

/-- Witness for `expandWord_parameter_lookup` at a concrete input
(both the bound and the unbound branch). -/
theorem expandWord_parameter_lookup_witness :
    expandWord "h".toList [("HOME".toList, "val".toList)]
        (.mk "$HOME".toList [.parameter 0 4 "HOME".toList]) =
      .ok (.mk "val".toList []) ∧
    expandWord "h".toList [("HOME".toList, "val".toList)]
        (.mk "$nope".toList [.parameter 0 4 "nope".toList]) =
      .ok (.mk "$nope".toList [.parameter 0 4 "nope".toList]) :=
  ⟨(expandWord_parameter_lookup "h".toList _ _ _ 0 4 (by decide) (by decide)
      (by decide)).1 "val".toList (by decide),
   (expandWord_parameter_lookup "h".toList _ _ _ 0 4 (by decide) (by decide)
      (by decide)).2 (by decide)⟩

/-! ## Claim C5 -/

/-- **C5, counterexample.**  A word containing a Glob expansion need not
fail with the not-yet-implemented error: with duplicate bindings, the
parameter expansion to its right aborts resolution (panic-modelled
out-of-bounds replace) before the glob is ever reached. -/
theorem expandWord_glob_blocked_by_panic :
    ((Word.mk "*a $x".toList
        [.glob 0 1 "*a".toList false, .parameter 3 4 "x".toList]).expansions.any
      Expansion.isCmdOrGlob) = true ∧
    expandWord [] [("x".toList, []), ("x".toList, "Y".toList)]
        (.mk "*a $x".toList
          [.glob 0 1 "*a".toList false, .parameter 3 4 "x".toList]) =
      .error (.panicked "replace_range out of bounds") :=
  ⟨rfl, rfl⟩

/-- **C5, amended.**  Provided the word's ranges satisfy the data-model
invariant and the binding set has pairwise-distinct names, resolving a
word containing a `Command` or `Glob` expansion always fails with a
returned `Error::Unimplemented` (the explicit "not yet implemented"
failure, which is distinct from a silently retained unset parameter);
such expansions are never dropped or substituted. -/
theorem expandWord_unimplemented_on_cmd_glob (home : Str)
    (vars : List (Str × Str)) (w : Word)
    (hwf : rangesOK 0 w.expansions w.name.length = true)
    (hnd : (vars.map Prod.fst).Nodup)
    (hcg : w.expansions.any Expansion.isCmdOrGlob = true) :
    isUnimplRes (expandWord home vars w) = true := by
  unfold expandWord
  cases hemp : w.expansions.isEmpty with
  | true =>
    rw [List.isEmpty_iff] at hemp
    rw [hemp] at hcg
    cases hcg
  | false =>
    have hd : descOK ((w.expansions.enum).reverse) w.name.length = true := by
      have := rangesOK_descOK hwf 0
      simpa [List.enum] using this
    have hany : ((w.expansions.enum).reverse).any
        (fun p => p.2.isCmdOrGlob) = true := by
      rw [List.any_reverse, List.enum, any_enumFrom]
      exact hcg
    have hloop := expandLoop_unimpl home hnd
      ((w.expansions.enum).reverse) w.name [] hd hany
    cases hres : expandLoop home vars ((w.expansions.enum).reverse) w.name [] with
    | error err =>
      rw [hres] at hloop
      cases err with
      | panicked msg => simp [isUnimplRes] at hloop
      | unimplemented msg => simp [hres, isUnimplRes]
      | outOfFuel => simp [isUnimplRes] at hloop
    | ok pr => rw [hres] at hloop; cases hloop

/-- Witness for `expandWord_unimplemented_on_cmd_glob` at a concrete input. -/
theorem expandWord_unimplemented_on_cmd_glob_witness :
    isUnimplRes (expandWord [] []
        (.mk "*".toList [.glob 0 0 "*".toList false])) = true :=
  expandWord_unimplemented_on_cmd_glob [] [] _ (by decide) (by decide)
    (by decide)

/-! ## Claim C6: `Command::vars` -/

/-- Take the first option if present, otherwise the second. -/
def firstSome {α : Type} (a b : Option α) : Option α :=
  match a with
  | some v => some v
  | none => b

theorem firstSome_none_right {α : Type} (a : Option α) :
    firstSome a none = a := by cases a <;> rfl

theorem firstSome_some {α : Type} (v : α) (b : Option α) :
    firstSome (some v) b = some v := rfl

theorem firstSome_assoc {α : Type} (a b c : Option α) :
    firstSome (firstSome a b) c = firstSome a (firstSome b c) := by
  cases a <;> rfl

/-- Spec-level upsert (from the claim's words): remove any existing entry
with the same name, then append a fresh one. -/
def upsert (pname v : Str) (vars : List (Str × Str)) : List (Str × Str) :=
  removeFirstByName pname vars ++ [(pname, v)]

/-- Spec-level fold of upserts over the assignment pairs, in source order. -/
def upsertAll (env : List (Str × Str)) (ps : List (Str × Str)) :
    List (Str × Str) :=
  ps.foldl (fun vs p => upsert p.1 p.2 vs) env

/-- The `(dest name, value name)` pairs of the prefix assignments, in order. -/
def assignmentPairs (ms : List Meta) : List (Str × Str) :=
  ms.filterMap fun m =>
    match m with
    | .assignment dst val => some (dst.name, val.name)
    | _ => none

/-- Last binding with a matching name (the binding visible to a
last-match-wins reader of the ordered set). -/
def lookupLast (pname : Str) : List (Str × Str) → Option Str
  | [] => none
  | (v, val) :: rest =>
    firstSome (lookupLast pname rest) (if v = pname then some val else none)

/-- Both words of an assignment carry no expansions (so resolving them is
the identity). -/
def Meta.assignWordsExpansionFree : Meta → Bool
  | .assignment dst val => dst.expansions.isEmpty && val.expansions.isEmpty
  | _ => true

theorem expandWord_no_expansions (home : Str) (vars : List (Str × Str))
    (w : Word) (h : w.expansions.isEmpty = true) :
    expandWord home vars w = .ok w := by
  simp [expandWord, h]

theorem varsStep_assignment (home : Str) (vs : List (Str × Str))
    (dst val : Word) (h1 : dst.expansions.isEmpty = true)
    (h2 : val.expansions.isEmpty = true) :
    varsStep home vs (.assignment dst val) =
      removeFirstByName dst.name vs ++ [(dst.name, val.name)] := by
  have e1 := expandWord_no_expansions home vs dst h1
  have e2 := expandWord_no_expansions home vs val h2
  simp [varsStep, expandMeta, e1, e2, Except.bind, bind, pure, Except.pure]

theorem varsFold_upsertAll (home : Str) :
    ∀ (ms : List Meta) (env : List (Str × Str)),
      ms.all Meta.assignWordsExpansionFree = true →
      (ms.filter Meta.isAssignment).foldl (varsStep home) env =
        upsertAll env (assignmentPairs ms) := by
  intro ms
  induction ms with
  | nil => intro env _; rfl
  | cons m rest ih =>
    intro env hall
    simp only [List.all_cons, Bool.and_eq_true] at hall
    cases m with
    | redirect r =>
      simpa [List.filter, Meta.isAssignment, assignmentPairs] using
        ih env hall.2
    | word w =>
      simpa [List.filter, Meta.isAssignment, assignmentPairs] using
        ih env hall.2
    | assignment dst val =>
      simp only [Meta.assignWordsExpansionFree, Bool.and_eq_true] at hall
      simp only [List.filter, Meta.isAssignment, List.foldl_cons,
        assignmentPairs, List.filterMap_cons]
      rw [varsStep_assignment home env dst val hall.1.1 hall.1.2]
      exact ih _ hall.2

theorem lookupLast_append (pname : Str) (A B : List (Str × Str)) :
    lookupLast pname (A ++ B) =
      firstSome (lookupLast pname B) (lookupLast pname A) := by
  induction A with
  | nil => simp [lookupLast, firstSome_none_right]
  | cons p A' ih =>
    obtain ⟨a, b⟩ := p
    simp only [List.cons_append, lookupLast, List.append_eq, ih,
      firstSome_assoc]

theorem lookupLast_removeFirstByName {pname q : Str} (hne : q ≠ pname)
    (env : List (Str × Str)) :
    lookupLast pname (removeFirstByName q env) = lookupLast pname env := by
  induction env with
  | nil => rfl
  | cons p rest ih =>
    obtain ⟨a, b⟩ := p
    by_cases ha : a = q
    · subst ha
      simp [removeFirstByName, lookupLast, if_neg hne, firstSome_none_right]
    · simp only [removeFirstByName, if_neg ha, lookupLast, ih]

theorem lookupLast_upsert (pname q v : Str) (env : List (Str × Str)) :
    lookupLast pname (upsert q v env) =
      if q = pname then some v else lookupLast pname env := by
  unfold upsert
  rw [lookupLast_append]
  by_cases hq : q = pname
  · simp [lookupLast, hq, firstSome]
  · simp only [lookupLast, if_neg hq, firstSome_none_right, if_neg hq]
    simp only [firstSome]
    exact lookupLast_removeFirstByName hq env

theorem lookupLast_upsertAll (pname : Str) :
    ∀ (ps env : List (Str × Str)),
      lookupLast pname (upsertAll env ps) =
        firstSome (lookupLast pname ps) (lookupLast pname env) := by
  intro ps
  induction ps with
  | nil => intro env; rfl
  | cons p ps' ih =>
    intro env
    obtain ⟨q, v⟩ := p
    have step : upsertAll env ((q, v) :: ps') = upsertAll (upsert q v env) ps' :=
      rfl
    rw [step, ih, lookupLast_upsert]
    by_cases hq : q = pname
    · simp only [lookupLast, if_pos hq, if_pos hq]
      cases lookupLast pname ps' <;> rfl
    · simp only [lookupLast, if_neg hq, if_neg hq, firstSome_none_right]

/-- **C6, counterexample.**  A prefix assignment whose value word fails to
resolve (here `A=*`, a Glob expansion) is silently skipped by
`Command::vars`: with an empty environment the returned binding set is
empty, even though the claim requires a fresh entry (`A`, ...) to be
appended for every prefix assignment. -/
theorem vars_skips_unresolvable_assignment :
    (Command.vars [] []
        (.mk (.mk "c".toList [])
          [.assignment (.mk "A".toList [])
            (.mk "*".toList [.glob 0 0 "*".toList false])] [])).map Prod.fst
      = [] ∧
    assignmentPairs
        (Command.mk (.mk "c".toList [])
          [.assignment (.mk "A".toList [])
            (.mk "*".toList [.glob 0 0 "*".toList false])] []).prefixes
      = [("A".toList, "*".toList)] :=
  ⟨rfl, rfl⟩

/-- **C6, amended.**  Provided every prefix assignment's words carry no
expansions (so each value resolves to itself; an assignment whose value
fails to resolve is skipped, per the counterexample), `Command::vars` is
exactly the ordered environment snapshot followed by one upsert per
prefix assignment in source order — each upsert removing any existing
entry of that name and appending a fresh one — so a name's visible
(last) binding is its last assignment when one exists, and its
environment binding otherwise. -/
theorem vars_upsert_characterization (home : Str) (env : List (Str × Str))
    (cmd : Command)
    (h : cmd.prefixes.all Meta.assignWordsExpansionFree = true) :
    Command.vars home env cmd = upsertAll env (assignmentPairs cmd.prefixes) ∧
    (∀ pname, lookupLast pname (Command.vars home env cmd) =
      firstSome (lookupLast pname (assignmentPairs cmd.prefixes))
        (lookupLast pname env)) := by
  have h1 : Command.vars home env cmd =
      upsertAll env (assignmentPairs cmd.prefixes) :=
    varsFold_upsertAll home cmd.prefixes env h
  refine ⟨h1, fun pname => ?_⟩
  rw [h1, lookupLast_upsertAll]

/-- Witness for `vars_upsert_characterization`: `A=1 A=2 B=$?`-style
prefix list over an environment binding `A`; the later assignment
overrides the earlier one and shadows the environment entry. -/
theorem vars_upsert_characterization_witness :
    Command.vars [] [("A".toList, "0".toList)]
        (.mk (.mk "c".toList [])
          [.assignment (.mk "A".toList []) (.mk "1".toList []),
           .assignment (.mk "A".toList []) (.mk "2".toList []),
           .assignment (.mk "B".toList []) (.mk "3".toList [])] []) =
      [("A".toList, "2".toList), ("B".toList, "3".toList)] ∧
    lookupLast "A".toList (Command.vars [] [("A".toList, "0".toList)]
        (.mk (.mk "c".toList [])
          [.assignment (.mk "A".toList []) (.mk "1".toList []),
           .assignment (.mk "A".toList []) (.mk "2".toList []),
           .assignment (.mk "B".toList []) (.mk "3".toList [])] [])) =
      some "2".toList := by
  have h := vars_upsert_characterization []
    [("A".toList, "0".toList)]
    (.mk (.mk "c".toList [])
      [.assignment (.mk "A".toList []) (.mk "1".toList []),
       .assignment (.mk "A".toList []) (.mk "2".toList []),
       .assignment (.mk "B".toList []) (.mk "3".toList [])] [])
    (by decide)
  constructor
  · rw [h.1]; rfl
  · rw [h.2 "A".toList]; rfl

/-! ## Claim C10: `Command::redirections` -/

/-- Does this redirect set the stdout slot? (`from` absent or `"1"`.) -/
def setsStdout : Redirect → Bool
  | .output none _ _ => true
  | .output (some src) _ _ => decide (src.name = "1".toList)
  | .input _ => false

/-- Does this redirect set the stderr slot? (`from = "2"`.) -/
def setsStderr : Redirect → Bool
  | .output (some src) _ _ => decide (src.name = "2".toList)
  | _ => false

/-- Does this redirect set the stdin slot? (any input redirect.) -/
def setsStdin : Redirect → Bool
  | .input _ => true
  | _ => false

/-- The last redirect among the metas satisfying `p` (later entries win). -/
def lastRedirectWhere (p : Redirect → Bool) : List Meta → Option Redirect
  | [] => none
  | .redirect r :: rest =>
    firstSome (lastRedirectWhere p rest) (if p r then some r else none)
  | _ :: rest => lastRedirectWhere p rest

theorem redirLoop_characterization :
    ∀ (ms : List Meta) (i o e : Option Redirect),
      redirLoop ms i o e =
        (firstSome (lastRedirectWhere setsStdin ms) i,
         firstSome (lastRedirectWhere setsStdout ms) o,
         firstSome (lastRedirectWhere setsStderr ms) e) := by
  intro ms
  induction ms with
  | nil => intro i o e; rfl
  | cons m rest ih =>
    intro i o e
    cases m with
    | word w =>
      have hstep : redirLoop (Meta.word w :: rest) i o e =
          redirLoop rest i o e := rfl
      rw [hstep, ih]; rfl
    | assignment dst val =>
      have hstep : redirLoop (Meta.assignment dst val :: rest) i o e =
          redirLoop rest i o e := rfl
      rw [hstep, ih]; rfl
    | redirect r =>
      cases r with
      | output src tgt app =>
        cases src with
        | none =>
          have hstep :
              redirLoop (Meta.redirect (.output none tgt app) :: rest) i o e =
                redirLoop rest i (some (.output none tgt app)) e := rfl
          rw [hstep, ih]
          simp [lastRedirectWhere, setsStdin, setsStdout, setsStderr,
            firstSome_assoc, firstSome_some, firstSome_none_right]
        | some srcw =>
          simp only [redirLoop]
          by_cases h1 : srcw.name = "1".toList
          · rw [if_pos h1, ih]
            simp [lastRedirectWhere, setsStdin, setsStdout, setsStderr, h1,
              firstSome_assoc, firstSome_some, firstSome_none_right]
          · rw [if_neg h1]
            by_cases h2 : srcw.name = "2".toList
            · rw [if_pos h2, ih]
              simp [lastRedirectWhere, setsStdin, setsStdout, setsStderr,
                h1, h2, firstSome_assoc, firstSome_some,
                firstSome_none_right]
            · rw [if_neg h2, ih]
              have h1' : ¬srcw.name = ['1'] := by simpa using h1
              have h2' : ¬srcw.name = ['2'] := by simpa using h2
              simp [lastRedirectWhere, setsStdin, setsStdout, setsStderr,
                h1', h2', firstSome_assoc, firstSome_some,
                firstSome_none_right]
      | input tgt =>
        have hstep :
            redirLoop (Meta.redirect (.input tgt) :: rest) i o e =
              redirLoop rest (some (.input tgt)) o e := rfl
        rw [hstep, ih]
        simp [lastRedirectWhere, setsStdin, setsStdout, setsStderr,
          firstSome_assoc, firstSome_some, firstSome_none_right]

/-! ## The word scanner (`parse_word` and helpers) -/

/-- `ExpansionType` from ast.rs (`None` is rendered `noExpansion`). -/
inductive ExpansionType where
  | all
  | variablesAndCommands
  | noExpansion
deriving DecidableEq

/-- Modelled from the spec: `util::is_valid_first_character_of_expansion`
(module `util` is not under src/).  §4.3 speaks of name-start /
name-continuation characters, and the source uses this single predicate
for both; ASCII letters, digits and underscore. -/
def isValidFirstCharacterOfExpansion (c : Char) : Bool :=
  c.isAlpha || c.isDigit || c = '_'

/-- The name loop of the `'$'` arm of `parse_word`: consume
name-continuation characters, bumping the index once per consumed
character; returns the name, the index, and the unconsumed rest. -/
def scanParamName : List Char → Str → Nat → Str × Nat × List Char
  | [], var, index => (var, index, [])
  | c :: r, var, index =>
    if isValidFirstCharacterOfExpansion c then
      scanParamName r (var ++ [c]) (index + 1)
    else (var, index, c :: r)

/-- The `$(`-loop of `parse_word`: consume the nested command text
tracking `$(`-nesting depth (incremented when `$` is followed by `(`,
decremented on nested `)`), stopping after the matching unnested `)` —
which is consumed and counted by the index but not pushed. -/
def scanSubcmd : List Char → Nat → Nat → Str → Str × Nat × List Char
  | [], _, index, acc => (acc, index, [])
  | next :: r, lvl, index, acc =>
    let lvl' := if next = '$' ∧ r.head? = some '(' then lvl + 1 else lvl
    if next = ')' then
      if 0 < lvl' then scanSubcmd r (lvl' - 1) (index + 1) (acc ++ [next])
      else (acc, index + 1, r)
    else scanSubcmd r lvl' (index + 1) (acc ++ [next])

/-- The `'*'` glob loop of `parse_word`: a further `*` is always consumed
and sets the recursive flag; any other character is consumed unless it is
a space or `/`. -/
def scanGlob : List Char → Str → Bool → Nat → Str × Bool × Nat × List Char
  | [], pat, rflag, index => (pat, rflag, index, [])
  | c :: r, pat, rflag, index =>
    if c = '*' then scanGlob r (pat ++ [c]) true (index + 1)
    else if c = ' ' ∨ c = '/' then (pat, rflag, index, c :: r)
    else scanGlob r (pat ++ [c]) rflag (index + 1)

/-- The main scan loop of `parse_word`.  `rec` is the recursive re-entry
into the whole tokenizer→parser pipeline used for `$(...)` command
substitutions (`parse(subcmd)` in the source), whose unbounded recursion
is bounded by the explicit fuel of `parseIter` below.  `fuel` here bounds
the number of loop iterations: each iteration consumes at least one
character, so `s.length` iterations always suffice and `outOfFuel` is
unreachable from the entry point.  The source's `' '` no-op arm falls
into the final catch-all, which is identical. -/
def scanWord (rec : Str → Except RunError SyntaxTree)
    (mode : ExpansionType) :
    Nat → List Char → Nat → Option Char → List Expansion →
      Except RunError (List Expansion)
  | _, [], _, _, acc => .ok acc
  | 0, _ :: _, _, _, _ => .error .outOfFuel
  | fuel + 1, ch :: rest, index, prev, acc =>
    if ch = '$' then
      match rest with
      | [] => .error (.panicked "got unexpected character after dollar sign")
      | c :: r =>
        if isValidFirstCharacterOfExpansion c then
          match scanParamName r [c] index with
          | (pname, index₁, rest₁) =>
            scanWord rec mode fuel rest₁ (index₁ + 1 + 1) (some ch)
              (acc ++ [.parameter index (index₁ + 1) pname])
        else if c = '(' then
          match scanSubcmd r 0 index [] with
          | (subcmd, index₁, rest₁) =>
            match rec subcmd with
            | .error err => .error err
            | .ok ast =>
              scanWord rec mode fuel rest₁ (index₁ + 1 + 1) (some ch)
                (acc ++ [.command index (index₁ + 1) ast])
        else .error (.panicked "got unexpected character after dollar sign")
    else if ch = '*' ∧ mode = .all then
      match scanGlob rest [ch] false index with
      | (pat, rflag, index₁, rest₁) =>
        scanWord rec mode fuel rest₁ (index₁ + 1) (some ch)
          (acc ++ [.glob index index₁ pat rflag])
    else if ch = '~' ∧ mode = .all ∧
        (prev = some ' ' ∨ prev = some '=' ∨ prev = none) then
      if rest.head? = some ' ' ∨ rest.head? = some '/' ∨ rest.head? = none then
        scanWord rec mode fuel rest (index + 1) (some ch)
          (acc ++ [.tilde index])
      else
        scanWord rec mode fuel rest (index + 1) (some ch) acc
    else
      scanWord rec mode fuel rest (index + 1) (some ch) acc

/-- `parse_word` from ast.rs: early return for no-expansion mode,
otherwise scan the text for expansions (fuel instantiated at the length
of the text, which always suffices). -/
def parseWordGiven (rec : Str → Except RunError SyntaxTree)
    (s : Str) (mode : ExpansionType) : Except RunError Word :=
  match mode with
  | .noExpansion => .ok (.mk s [])
  | _ =>
    match scanWord rec mode s.length s 0 none [] with
    | .error err => .error err
    | .ok exps => .ok (.mk s exps)

/-! ## The parser (`parse_meta`, `parse_command`, `parse_tokens`) -/

/-- The token type.  Modelled from the spec (§4.1) and from its usage in
ast.rs: `src/posh-core/src/engine/parser/lexer.rs`, which defines it, is
not under src/. -/
inductive Token where
  | string (s : Str)
  | singleQuotedString (s : Str) (closed : Bool)
  | doubleQuotedString (s : Str) (closed : Bool)
  | redirectOutput (src : Option Str) (tgt : Str) (ws : Option Str)
      (append : Bool)
  | redirectInput (tgt : Str)
  | pipe
  | semicolon
  | space
  | and
  | or
  | ampersand

def Token.isSemicolon : Token → Bool
  | .semicolon => true
  | _ => false

def Token.isPipe : Token → Bool
  | .pipe => true
  | _ => false

/-- `str::split_once` on a separator character. -/
def splitOnce (c : Char) : Str → Option (Str × Str)
  | [] => none
  | a :: rest =>
    if a = c then some ([], rest)
    else
      match splitOnce c rest with
      | some (pre, post) => some (a :: pre, post)
      | none => none

/-- `parse_meta` from ast.rs.  `prefixPos` is the source's
`is_prefix` argument (`name.is_none()` at the call site): only in prefix
position is a `NAME=VALUE` string split into an assignment. -/
def parseMetaGiven (rec : Str → Except RunError SyntaxTree)
    (tok : Token) (prefixPos : Bool) : Except RunError (Option Meta) :=
  match tok with
  | .string s =>
    if prefixPos then
      match splitOnce '=' s with
      | some (var, val) => do
        let varW ← parseWordGiven rec var .noExpansion
        let valW ← parseWordGiven rec val .all
        pure (some (.assignment varW valW))
      | none => do
        pure (some (.word (← parseWordGiven rec s .all)))
    else do
      pure (some (.word (← parseWordGiven rec s .all)))
  | .singleQuotedString s closed =>
    if closed then do
      pure (some (.word (← parseWordGiven rec s .noExpansion)))
    else pure none
  | .doubleQuotedString s closed =>
    if closed then do
      pure (some (.word (← parseWordGiven rec s .variablesAndCommands)))
    else pure none
  | .redirectInput s => do
    pure (some (.redirect (.input (← parseWordGiven rec s .all))))
  | .redirectOutput src tgt _ app => do
    let srcW ← match src with
      | some s => do pure (some (← parseWordGiven rec s .all))
      | none => pure none
    let tgtW ← parseWordGiven rec tgt .all
    pure (some (.redirect (.output srcW tgtW app)))
  | _ => .error (.panicked "internal error: entered unreachable code")

/-- The token loop of `parse_command`, carrying the mutable
`name`/`prefixes`/`suffixes` state.  `todo!` arms for `And`/`Or`/
`Ampersand` and the `unreachable!` arms are panics. -/
def parseCommandLoop (rec : Str → Except RunError SyntaxTree) :
    List Token → Option Word → List Meta → List Meta →
      Except RunError (Option Command)
  | [], name?, pres, sufs =>
    match name? with
    | some w => .ok (some (.mk w pres sufs))
    | none => .ok none
  | tok :: rest, name?, pres, sufs =>
    match tok with
    | .string s =>
      match parseMetaGiven rec (.string s) name?.isNone with
      | .error err => .error err
      | .ok (some (.word w)) =>
        match name? with
        | none => parseCommandLoop rec rest (some w) pres sufs
        | some _ => parseCommandLoop rec rest name? pres (sufs ++ [.word w])
      | .ok (some (.assignment dst val)) =>
        match name? with
        | none =>
          parseCommandLoop rec rest name? (pres ++ [.assignment dst val]) sufs
        | some _ =>
          parseCommandLoop rec rest name? pres (sufs ++ [.assignment dst val])
      | .ok (some _) => .error (.panicked "disallowed type")
      | .ok none => parseCommandLoop rec rest name? pres sufs
    | .singleQuotedString s closed =>
      match parseMetaGiven rec (.singleQuotedString s closed) name?.isNone with
      | .error err => .error err
      | .ok (some (.word w)) =>
        match name? with
        | none => parseCommandLoop rec rest (some w) pres sufs
        | some _ => parseCommandLoop rec rest name? pres (sufs ++ [.word w])
      | .ok (some (.assignment dst val)) =>
        match name? with
        | none =>
          parseCommandLoop rec rest name? (pres ++ [.assignment dst val]) sufs
        | some _ =>
          parseCommandLoop rec rest name? pres (sufs ++ [.assignment dst val])
      | .ok (some _) => .error (.panicked "disallowed type")
      | .ok none => parseCommandLoop rec rest name? pres sufs
    | .doubleQuotedString s closed =>
      match parseMetaGiven rec (.doubleQuotedString s closed) name?.isNone with
      | .error err => .error err
      | .ok (some (.word w)) =>
        match name? with
        | none => parseCommandLoop rec rest (some w) pres sufs
        | some _ => parseCommandLoop rec rest name? pres (sufs ++ [.word w])
      | .ok (some (.assignment dst val)) =>
        match name? with
        | none =>
          parseCommandLoop rec rest name? (pres ++ [.assignment dst val]) sufs
        | some _ =>
          parseCommandLoop rec rest name? pres (sufs ++ [.assignment dst val])
      | .ok (some _) => .error (.panicked "disallowed type")
      | .ok none => parseCommandLoop rec rest name? pres sufs
    | .redirectOutput src tgt ws app =>
      match parseMetaGiven rec (.redirectOutput src tgt ws app) name?.isNone with
      | .error err => .error err
      | .ok (some m) =>
        match name? with
        | none => parseCommandLoop rec rest name? (pres ++ [m]) sufs
        | some _ => parseCommandLoop rec rest name? pres (sufs ++ [m])
      | .ok none => parseCommandLoop rec rest name? pres sufs
    | .redirectInput tgt =>
      match parseMetaGiven rec (.redirectInput tgt) name?.isNone with
      | .error err => .error err
      | .ok (some m) =>
        match name? with
        | none => parseCommandLoop rec rest name? (pres ++ [m]) sufs
        | some _ => parseCommandLoop rec rest name? pres (sufs ++ [m])
      | .ok none => parseCommandLoop rec rest name? pres sufs
    | .space => parseCommandLoop rec rest name? pres sufs
    | .and =>
      .error (.panicked "not yet implemented: AND is not yet implemented")
    | .or =>
      .error (.panicked "not yet implemented: OR is not yet implemented")
    | .ampersand =>
      .error (.panicked
        "not yet implemented: asynchronous execution is not yet implemented")
    | .semicolon =>
      .error (.panicked
        "internal error: entered unreachable code: semicolons should have been found already")
    | .pipe =>
      .error (.panicked
        "internal error: entered unreachable code: pipes should have been found already")

/-- `parse_command` from ast.rs. -/
def parseCommandGiven (rec : Str → Except RunError SyntaxTree)
    (tokens : List Token) : Except RunError (Option Command) :=
  parseCommandLoop rec tokens none [] []

/-- Model of `slice::split`: split on matching elements, dropping them;
the empty list yields one empty group, and a trailing separator yields a
trailing empty group. -/
def splitOnPred {α : Type} (p : α → Bool) : List α → List (List α)
  | [] => [[]]
  | a :: as =>
    if p a then [] :: splitOnPred p as
    else
      match splitOnPred p as with
      | [] => [[a]]
      | g :: gs => (a :: g) :: gs

/-- The `cmds` branch of `parse_tokens`: parse every non-empty stage of a
pipe-separated group, in order; a stage that fails to parse is the
`panic!("could not parse command")` path. -/
def parsePipelineCmds (rec : Str → Except RunError SyntaxTree) :
    List (List Token) → Except RunError (List Command)
  | [] => .ok []
  | cmd :: rest =>
    if cmd.isEmpty then parsePipelineCmds rec rest
    else
      match parseCommandGiven rec cmd with
      | .error err => .error err
      | .ok none => .error (.panicked "could not parse command")
      | .ok (some c) =>
        match parsePipelineCmds rec rest with
        | .error err => .error err
        | .ok cs => .ok (c :: cs)

/-- The group loop of `parse_tokens`: a group with exactly one non-empty
stage yields `Single`; otherwise all non-empty stages are parsed and a
`Pipeline` is pushed iff at least one stage produced a command. -/
def parseTokensLoop (rec : Str → Except RunError SyntaxTree) :
    List (List (List Token)) → List CommandType →
      Except RunError (List CommandType)
  | [], acc => .ok acc
  | pipeline :: rest, acc =>
    match pipeline with
    | [cmd] =>
      if cmd.isEmpty then
        match parsePipelineCmds rec [cmd] with
        | .error err => .error err
        | .ok cs =>
          parseTokensLoop rec rest
            (if cs.isEmpty then acc else acc ++ [.pipeline cs])
      else
        match parseCommandGiven rec cmd with
        | .error err => .error err
        | .ok (some c) => parseTokensLoop rec rest (acc ++ [.single c])
        | .ok none => .error (.panicked "could not parse command")
    | cmds =>
      match parsePipelineCmds rec cmds with
      | .error err => .error err
      | .ok cs =>
        parseTokensLoop rec rest
          (if cs.isEmpty then acc else acc ++ [.pipeline cs])

/-- `parse_tokens` from ast.rs: split on semicolons, then each group on
pipes, and process every group. -/
def parseTokensGiven (rec : Str → Except RunError SyntaxTree)
    (tokens : List Token) : Except RunError SyntaxTree :=
  match parseTokensLoop rec
      ((splitOnPred Token.isSemicolon tokens).map (splitOnPred Token.isPipe))
      [] with
  | .error err => .error err
  | .ok cs => .ok (.mk cs)

/-- A trivial recursion stub for theorems whose inputs contain no
`$(...)` substitution (the recursive re-entry is then never invoked). -/
def recStub : Str → Except RunError SyntaxTree := fun _ => .error .outOfFuel

/-! ## Textual rendering (`to_string` impls from ast.rs) -/

/-- `Vec::join` / string join with a separator. -/
def joinWith {α : Type} (sep : List α) : List (List α) → List α
  | [] => []
  | [x] => x
  | x :: xs => x ++ sep ++ joinWith sep xs

/-- `str::trim` (drop leading and trailing whitespace). -/
def trimStr (s : Str) : Str :=
  ((s.dropWhile Char.isWhitespace).reverse.dropWhile Char.isWhitespace).reverse

/-- `Meta::to_string` (with the nested `Redirect` rendering inlined, as
in the source). -/
def Meta.render : Meta → Str
  | .word w => w.name
  | .redirect (.input tgt) => '<' :: tgt.name
  | .redirect (.output none tgt false) => '>' :: tgt.name
  | .redirect (.output none tgt true) => '>' :: '>' :: tgt.name
  | .redirect (.output (some src) tgt false) => src.name ++ '>' :: tgt.name
  | .redirect (.output (some src) tgt true) =>
    src.name ++ '>' :: '>' :: tgt.name
  | .assignment dst val => dst.name ++ '=' :: val.name

/-- `Command::to_string`: trimmed prefix renders joined by spaces, the
name, then trimmed suffix renders joined by spaces. -/
def Command.render (cmd : Command) : Str :=
  let pres := joinWith " ".toList (cmd.prefixes.map fun m => trimStr m.render)
  let sufs := joinWith " ".toList (cmd.suffixes.map fun m => trimStr m.render)
  (if pres.isEmpty then [] else pres ++ [' ']) ++
    cmd.name.name ++ (if sufs.isEmpty then [] else [' ']) ++ sufs

/-- `CommandType::to_string`: pipeline commands joined by `" | "`. -/
def CommandType.render : CommandType → Str
  | .single cmd => cmd.render
  | .pipeline cmds => joinWith " | ".toList (cmds.map Command.render)

/-- `SyntaxTree::to_string`: command groups joined by `"; "`. -/
def SyntaxTree.render (t : SyntaxTree) : Str :=
  joinWith "; ".toList (t.commands.map CommandType.render)

/-! ## The tokenizer

Modelled from the spec: `src/posh-core/src/engine/parser/lexer.rs` is not
included under src/, so `lex` below follows the contract of §4.1 (token
kinds, quote `closed` flags, `NAME=VALUE` detection is not needed here)
and the literal scenarios of §8: words split on whitespace and operator
characters, `||`/`&&` before `|`/`&`, quotes capture until the matching
quote with a `closed` flag, `<`/`>`/`>>` capture a target (an optional
`&` then target characters), and a word made of digits immediately
followed by `>` becomes the redirect's `from` descriptor (per the
`2>&1` scenario). -/

/-- Characters that end a plain word / redirect target. -/
def isWordChar (c : Char) : Bool :=
  !(c = ' ' || c = ';' || c = '|' || c = '&' || c = '<' || c = '>' ||
    c = '\'' || c = '"')

/-- A redirect target: an optional leading `&`, then target characters. -/
def lexTarget : List Char → Str × List Char
  | '&' :: r => ('&' :: r.takeWhile isWordChar, r.dropWhile isWordChar)
  | r => (r.takeWhile isWordChar, r.dropWhile isWordChar)

/-- After a `>`: an optional second `>` (append), optional interstitial
spaces, then the target. -/
def lexRedirectOutputTail (src : Option Str) (chars : List Char) :
    Token × List Char :=
  match chars with
  | '>' :: r =>
    let ws := r.takeWhile fun c => decide (c = ' ')
    let r' := r.dropWhile fun c => decide (c = ' ')
    let (tgt, rest) := lexTarget r'
    (.redirectOutput src tgt (if ws.isEmpty then none else some ws) true, rest)
  | r =>
    let ws := r.takeWhile fun c => decide (c = ' ')
    let r' := r.dropWhile fun c => decide (c = ' ')
    let (tgt, rest) := lexTarget r'
    (.redirectOutput src tgt (if ws.isEmpty then none else some ws) false, rest)

/-- The tokenizer loop; `fuel` bounds the number of emitted tokens (each
token consumes at least one character, so the input length suffices). -/
def lexF : Nat → List Char → List Token
  | _, [] => []
  | 0, _ :: _ => []
  | fuel + 1, c :: rest =>
    if c = ' ' then .space :: lexF fuel rest
    else if c = ';' then .semicolon :: lexF fuel rest
    else if c = '|' then
      match rest with
      | '|' :: r => .or :: lexF fuel r
      | _ => .pipe :: lexF fuel rest
    else if c = '&' then
      match rest with
      | '&' :: r => .and :: lexF fuel r
      | _ => .ampersand :: lexF fuel rest
    else if c = '\'' then
      let content := rest.takeWhile fun ch => decide (ch ≠ '\'')
      let rest' := rest.dropWhile fun ch => decide (ch ≠ '\'')
      match rest' with
      | '\'' :: r => .singleQuotedString content true :: lexF fuel r
      | _ => [.singleQuotedString content false]
    else if c = '"' then
      let content := rest.takeWhile fun ch => decide (ch ≠ '"')
      let rest' := rest.dropWhile fun ch => decide (ch ≠ '"')
      match rest' with
      | '"' :: r => .doubleQuotedString content true :: lexF fuel r
      | _ => [.doubleQuotedString content false]
    else if c = '<' then
      match lexTarget rest with
      | (tgt, rest') => .redirectInput tgt :: lexF fuel rest'
    else if c = '>' then
      match lexRedirectOutputTail none rest with
      | (tok, rest') => tok :: lexF fuel rest'
    else
      match rest.dropWhile isWordChar with
      | '>' :: r =>
        if (c :: rest.takeWhile isWordChar).all Char.isDigit then
          match lexRedirectOutputTail (some (c :: rest.takeWhile isWordChar)) r with
          | (tok, rest'') => tok :: lexF fuel rest''
        else
          .string (c :: rest.takeWhile isWordChar) :: lexF fuel
            (rest.dropWhile isWordChar)
      | _ =>
        .string (c :: rest.takeWhile isWordChar) :: lexF fuel
          (rest.dropWhile isWordChar)

/-- The tokenizer entry point. -/
def lex (line : Str) : List Token := lexF line.length line

/-- The whole pipeline (`parse` = lex + parse_tokens), with an explicit
fuel bound on the command-substitution recursion depth (§5 of the spec
calls for such a bound; the observed code recurses unboundedly). -/
def parseIter : Nat → Str → Except RunError SyntaxTree
  | 0, _ => .error .outOfFuel
  | fuel + 1, line => parseTokensGiven (parseIter fuel) (lex line)

/-- `parse` from ast.rs: nesting depth is at most the line length, so
`length + 1` fuel always suffices. -/
def parseLine (line : Str) : Except RunError SyntaxTree :=
  parseIter (line.length + 1) line

/-! ## Claim C2: pipelines in parsed trees -/

/-- **C2, counterexample.**  The token run of the line `echo hi |`
(a trailing pipe, so the group has a second, empty stage) parses to a
tree whose only command is a `Pipeline` of length 1 — not a `Single`. -/
theorem parseTokens_pipeline_singleton :
    parseTokensGiven recStub
        [.string "echo".toList, .space, .string "hi".toList, .space, .pipe] =
      .ok (.mk [.pipeline [.mk (.mk "echo".toList []) []
        [.word (.mk "hi".toList [])]]]) ∧
    [Command.mk (.mk "echo".toList []) [] [.word (.mk "hi".toList [])]].length
      = 1 :=
  ⟨rfl, rfl⟩

theorem parseTokensLoop_pipelines_nonempty
    (rec : Str → Except RunError SyntaxTree) :
    ∀ (groups : List (List (List Token))) (acc out : List CommandType),
      parseTokensLoop rec groups acc = .ok out →
      (∀ cs, CommandType.pipeline cs ∈ acc → cs ≠ []) →
      ∀ cs, CommandType.pipeline cs ∈ out → cs ≠ [] := by
  intro groups
  induction groups with
  | nil =>
    intro acc out h hacc
    injection h with h'
    subst h'
    exact hacc
  | cons g rest ih =>
    intro acc out h hacc
    rcases g with _ | ⟨cmd, gtail⟩
    · have hred : parseTokensLoop rec ([] :: rest) acc =
          parseTokensLoop rec rest acc := by
        simp [parseTokensLoop, parsePipelineCmds]
      rw [hred] at h
      exact ih _ _ h hacc
    · rcases gtail with _ | ⟨g2, gtail'⟩
      · by_cases hc : cmd.isEmpty = true
        · have hpp : parsePipelineCmds rec [cmd] = .ok ([] : List Command) := by
            simp [parsePipelineCmds, hc]
          have hred : parseTokensLoop rec ([cmd] :: rest) acc =
              parseTokensLoop rec rest acc := by
            simp [parseTokensLoop, hc, hpp]
          rw [hred] at h
          exact ih _ _ h hacc
        · cases hv : parseCommandGiven rec cmd with
          | error err =>
            have hred : parseTokensLoop rec ([cmd] :: rest) acc =
                .error err := by
              simp [parseTokensLoop, hc, hv]
            rw [hred] at h
            exact Except.noConfusion h
          | ok oc =>
            cases oc with
            | none =>
              have hred : parseTokensLoop rec ([cmd] :: rest) acc =
                  .error (.panicked "could not parse command") := by
                simp [parseTokensLoop, hc, hv]
              rw [hred] at h
              exact Except.noConfusion h
            | some c =>
              have hred : parseTokensLoop rec ([cmd] :: rest) acc =
                  parseTokensLoop rec rest (acc ++ [.single c]) := by
                simp [parseTokensLoop, hc, hv]
              rw [hred] at h
              refine ih _ _ h ?_
              intro cs hmem
              rcases List.mem_append.mp hmem with hm | hm
              · exact hacc cs hm
              · exact absurd (List.mem_singleton.mp hm) (by simp)
      · cases hv : parsePipelineCmds rec (cmd :: g2 :: gtail') with
        | error err =>
          have hred : parseTokensLoop rec ((cmd :: g2 :: gtail') :: rest) acc =
              .error err := by
            simp [parseTokensLoop, hv]
          rw [hred] at h
          exact Except.noConfusion h
        | ok cs' =>
          have hred : parseTokensLoop rec ((cmd :: g2 :: gtail') :: rest) acc =
              parseTokensLoop rec rest
                (if cs'.isEmpty then acc else acc ++ [.pipeline cs']) := by
            simp [parseTokensLoop, hv]
          rw [hred] at h
          by_cases hcs : cs'.isEmpty = true
          · rw [if_pos hcs] at h
            exact ih _ _ h hacc
          · rw [if_neg hcs] at h
            refine ih _ _ h ?_
            intro cs hmem
            rcases List.mem_append.mp hmem with hm | hm
            · exact hacc cs hm
            · have heq := List.mem_singleton.mp hm
              injection heq with heq'
              subst heq'
              intro hnil
              exact hcs (by rw [hnil]; rfl)

/-- **C2, amended.**  Every `CommandType::Pipeline` produced by the
parser is non-empty, and a group with a single non-empty stage yields
`Single`; however a group with several pipe-separated stages of which
only one is non-empty (e.g. a trailing pipe) yields a `Pipeline` of
length 1, so "never length 1" does not hold. -/
theorem parseTokens_pipelines_nonempty (rec : Str → Except RunError SyntaxTree)
    (tokens : List Token) (t : SyntaxTree)
    (h : parseTokensGiven rec tokens = .ok t) :
    ∀ cs, CommandType.pipeline cs ∈ t.commands → cs ≠ [] := by
  unfold parseTokensGiven at h
  cases hv : parseTokensLoop rec
      ((splitOnPred Token.isSemicolon tokens).map (splitOnPred Token.isPipe))
      [] with
  | error err => rw [hv] at h; exact Except.noConfusion h
  | ok cs' =>
    rw [hv] at h
    injection h with h'
    subst h'
    exact parseTokensLoop_pipelines_nonempty rec _ [] cs' hv
      (fun cs hm => absurd hm (List.not_mem_nil _))

/-- Witness for `parseTokens_pipelines_nonempty` at the token run of
`a | b`. -/
theorem parseTokens_pipelines_nonempty_witness :
    ([Command.mk (.mk "a".toList []) [] [],
      Command.mk (.mk "b".toList []) [] []] : List Command) ≠ [] :=
  parseTokens_pipelines_nonempty recStub
    [.string "a".toList, .pipe, .string "b".toList] _ rfl _ (List.Mem.head _)

/-! ## Claim C3: malformed stages abort (code bug) -/

/-- **C3.**  A stage with no valid command — here the token run of the
line `<foo`, a lone input redirect with no command name — does *not*
yield a structured syntax error value: `parse_tokens` hits
`panic!("could not parse command")` (the source's own
`// FIXME: syntax error?` marks the intent) and the process aborts. -/
theorem parseTokens_malformed_run_panics
    (rec : Str → Except RunError SyntaxTree) :
    parseTokensGiven rec [.redirectInput "foo".toList] =
      .error (.panicked "could not parse command") := rfl

/-! ## Claim C8: unsupported operators abort (code bug) -/

/-- **C8.**  Token runs containing `And`, `Or` or `Ampersand` do *not*
produce a returned "not yet supported" error value: `parse_command` hits
`todo!(..)`, i.e. a panic that aborts the process (its message names the
feature, but it is a crash, not a value returned to the caller). -/
theorem parseTokens_unsupported_operators_panic
    (rec : Str → Except RunError SyntaxTree) :
    parseTokensGiven rec [.string "a".toList, .space, .and] =
      .error (.panicked "not yet implemented: AND is not yet implemented") ∧
    parseTokensGiven rec [.string "a".toList, .space, .or] =
      .error (.panicked "not yet implemented: OR is not yet implemented") ∧
    parseTokensGiven rec [.string "a".toList, .space, .ampersand] =
      .error (.panicked
        "not yet implemented: asynchronous execution is not yet implemented") :=
  ⟨rfl, rfl, rfl⟩

/-! ## Claim C7: glob scanning -/

/-- Two or more *consecutive* `*` characters somewhere in the text. -/
def hasConsecStars : Str → Bool
  | c1 :: c2 :: rest =>
    if c1 = '*' ∧ c2 = '*' then true else hasConsecStars (c2 :: rest)
  | _ => false

/-- **C7, counterexample.**  Scanning the unquoted word `*a*` yields one
Glob expansion with `recursive = true`, although the word contains no two
consecutive `*` characters: the scanner sets the flag on *any* additional
`*` in the pattern, not only on consecutive ones. -/
theorem parseWord_nonconsecutive_stars_recursive :
    parseWordGiven recStub "*a*".toList .all =
      .ok (.mk "*a*".toList [.glob 0 2 "*a*".toList true]) ∧
    hasConsecStars "*a*".toList = false :=
  ⟨rfl, rfl⟩

/-- Number of `*` characters in a text. -/
def starCount : Str → Nat
  | [] => 0
  | c :: r => (if c = '*' then 1 else 0) + starCount r

theorem scanGlob_props :
    ∀ (chars : List Char) (pat : Str) (rflag : Bool) (index : Nat),
      ∃ consumed,
        (scanGlob chars pat rflag index).1 = pat ++ consumed ∧
        ((scanGlob chars pat rflag index).2.1 = true ↔
          (rflag = true ∨ 0 < starCount consumed)) ∧
        (∀ c ∈ consumed, c ≠ ' ' ∧ c ≠ '/') := by
  intro chars
  induction chars with
  | nil =>
    intro pat rflag index
    refine ⟨[], by simp [scanGlob], by simp [scanGlob, starCount], ?_⟩
    intro x hx
    cases hx
  | cons c r ih =>
    intro pat rflag index
    by_cases hstar : c = '*'
    · subst hstar
      obtain ⟨consumed, h1, h2, h3⟩ := ih (pat ++ ['*']) true (index + 1)
      have hred : scanGlob ('*' :: r) pat rflag index =
          scanGlob r (pat ++ ['*']) true (index + 1) := by
        simp [scanGlob]
      refine ⟨'*' :: consumed, ?_, ?_, ?_⟩
      · rw [hred, h1]; simp
      · rw [hred, h2]; simp [starCount]
      · intro x hx
        rcases List.mem_cons.mp hx with rfl | hx'
        · exact ⟨by decide, by decide⟩
        · exact h3 x hx'
    · by_cases hsp : c = ' ' ∨ c = '/'
      · have hred : scanGlob (c :: r) pat rflag index =
            (pat, rflag, index, c :: r) := by
          simp [scanGlob, hstar, hsp]
        refine ⟨[], by simp [hred], by simp [hred, starCount], ?_⟩
        intro x hx
        cases hx
      · obtain ⟨consumed, h1, h2, h3⟩ := ih (pat ++ [c]) rflag (index + 1)
        have hred : scanGlob (c :: r) pat rflag index =
            scanGlob r (pat ++ [c]) rflag (index + 1) := by
          simp [scanGlob, hstar, hsp]
        refine ⟨c :: consumed, ?_, ?_, ?_⟩
        · rw [hred, h1]; simp
        · rw [hred, h2]; simp [starCount, hstar]
        · intro x hx
          rcases List.mem_cons.mp hx with rfl | hx'
          · exact ⟨fun hh => hsp (Or.inl hh), fun hh => hsp (Or.inr hh)⟩
          · exact h3 x hx'

/-- The per-expansion glob property of the amended C7: the recursive flag
is set exactly when the pattern holds two or more `*` characters in
total, the pattern starts with `*`, and contains no space or `/`. -/
def globSpec (ex : Expansion) : Prop :=
  ∀ st en pat rflag, ex = .glob st en pat rflag →
    ((rflag = true) ↔ 2 ≤ starCount pat) ∧ pat.head? = some '*' ∧
    (∀ c ∈ pat, c ≠ ' ' ∧ c ≠ '/')

theorem globSpec_append {acc : List Expansion} {ex₀ : Expansion}
    (hacc : ∀ ex ∈ acc, globSpec ex) (h0 : globSpec ex₀) :
    ∀ ex ∈ acc ++ [ex₀], globSpec ex := by
  intro ex hex
  rcases List.mem_append.mp hex with hm | hm
  · exact hacc ex hm
  · rw [List.mem_singleton.mp hm]
    exact h0

theorem globSpec_not_glob {ex : Expansion}
    (h : ∀ st en pat rflag, ex ≠ .glob st en pat rflag) : globSpec ex :=
  fun st en pat rflag heq => absurd heq (h st en pat rflag)

theorem scanWord_glob_inv (rec : Str → Except RunError SyntaxTree)
    (mode : ExpansionType) :
    ∀ (fuel : Nat) (chars : List Char) (index : Nat) (prev : Option Char)
      (acc out : List Expansion),
      scanWord rec mode fuel chars index prev acc = .ok out →
      (∀ ex ∈ acc, globSpec ex) →
      ∀ ex ∈ out, globSpec ex := by
  intro fuel
  induction fuel with
  | zero =>
    intro chars index prev acc out h hacc
    cases chars with
    | nil => injection h with h'; subst h'; exact hacc
    | cons c cs => exact Except.noConfusion h
  | succ fuel ih =>
    intro chars index prev acc out h hacc
    cases chars with
    | nil => injection h with h'; subst h'; exact hacc
    | cons ch rest =>
      simp only [scanWord] at h
      by_cases hd : ch = '$'
      · rw [if_pos hd] at h
        cases rest with
        | nil => exact Except.noConfusion h
        | cons c r =>
          dsimp only at h
          by_cases hvc : isValidFirstCharacterOfExpansion c = true
          · rw [if_pos hvc] at h
            rcases hsp : scanParamName r [c] index with ⟨pname, i1, r1⟩
            rw [hsp] at h
            exact ih _ _ _ _ _ h (globSpec_append hacc
              (globSpec_not_glob (by intro st en pat rflag heq; cases heq)))
          · rw [if_neg hvc] at h
            by_cases hpar : c = '('
            · rw [if_pos hpar] at h
              rcases hsc : scanSubcmd r 0 index [] with ⟨subcmd, i1, r1⟩
              rw [hsc] at h
              cases hr : rec subcmd with
              | error err => rw [hr] at h; exact Except.noConfusion h
              | ok ast =>
                rw [hr] at h
                exact ih _ _ _ _ _ h (globSpec_append hacc
                  (globSpec_not_glob (by intro st en pat rflag heq; cases heq)))
            · rw [if_neg hpar] at h
              exact Except.noConfusion h
      · rw [if_neg hd] at h
        by_cases hg : ch = '*' ∧ mode = .all
        · rw [if_pos hg] at h
          rcases hsg : scanGlob rest [ch] false index with ⟨pat, rflag, i1, r1⟩
          rw [hsg] at h
          refine ih _ _ _ _ _ h (globSpec_append hacc ?_)
          intro st en pat' rflag' heq
          injection heq with e1 e2 e3 e4
          subst e3
          subst e4
          obtain ⟨consumed, hc1, hc2, hc3⟩ := scanGlob_props rest [ch] false index
          rw [hsg] at hc1 hc2
          dsimp only at hc1 hc2
          subst hc1
          obtain rfl : ch = '*' := hg.1
          refine ⟨?_, rfl, ?_⟩
          · rw [hc2]
            have hsc : starCount (['*'] ++ consumed) = 1 + starCount consumed := by
              simp [starCount]
            rw [hsc]
            simp only [Bool.false_eq_true, false_or]
            omega
          · intro x hx
            rcases List.mem_cons.mp hx with rfl | hx'
            · exact ⟨by decide, by decide⟩
            · exact hc3 x hx'
        · rw [if_neg hg] at h
          by_cases ht : ch = '~' ∧ mode = .all ∧
              (prev = some ' ' ∨ prev = some '=' ∨ prev = none)
          · rw [if_pos ht] at h
            by_cases hnx : rest.head? = some ' ' ∨ rest.head? = some '/' ∨
                rest.head? = none
            · rw [if_pos hnx] at h
              exact ih _ _ _ _ _ h (globSpec_append hacc
                (globSpec_not_glob (by intro st en pat rflag heq; cases heq)))
            · rw [if_neg hnx] at h
              exact ih _ _ _ _ _ h hacc
          · rw [if_neg ht] at h
            exact ih _ _ _ _ _ h hacc

/-- **C7, amended.**  When scanning an unquoted word, a `*` begins a Glob
expansion that consumes contiguous pattern characters until whitespace or
`/` (the recorded pattern starts with `*` and contains neither), and the
expansion's recursive flag is true exactly when two or more `*`
characters *in total* were consumed — consecutive or not (`*a*` is
recursive, per the counterexample). -/
theorem parseWord_glob_characterization
    (rec : Str → Except RunError SyntaxTree) (s : Str) (w : Word)
    (h : parseWordGiven rec s .all = .ok w) :
    ∀ ex ∈ w.expansions, ∀ st en pat rflag, ex = .glob st en pat rflag →
      ((rflag = true) ↔ 2 ≤ starCount pat) ∧ pat.head? = some '*' ∧
      (∀ c ∈ pat, c ≠ ' ' ∧ c ≠ '/') := by
  unfold parseWordGiven at h
  cases hs : scanWord rec .all s.length s 0 none [] with
  | error err => rw [hs] at h; exact Except.noConfusion h
  | ok exps =>
    rw [hs] at h
    injection h with h'
    subst h'
    intro ex hex
    exact scanWord_glob_inv rec .all s.length s 0 none [] exps hs
      (fun ex' hex' => absurd hex' (List.not_mem_nil _)) ex hex

/-- Witness for `parseWord_glob_characterization` at the word `*a*`. -/
theorem parseWord_glob_characterization_witness :
    ((true = true) ↔ 2 ≤ starCount "*a*".toList) ∧
    ("*a*".toList).head? = some '*' ∧
    (∀ c ∈ "*a*".toList, c ≠ ' ' ∧ c ≠ '/') :=
  parseWord_glob_characterization recStub "*a*".toList _ rfl
    (.glob 0 2 "*a*".toList true) (List.Mem.head _) 0 2 "*a*".toList true rfl

/-! ## Claim C9: render/parse round trip

`plainTree` marks the trees on which the amended idempotence claim is
proved: every word is non-empty and made of ordinary characters (no
whitespace, quotes, operator characters, `$`, `*`, `~`), command names
and assignment destinations carry no `=`, redirect descriptors are
digits, redirect targets may start with `&`, pipelines have length ≥ 2,
and no word carries expansions.  The counterexample shows why quoted
operator characters must be excluded. -/

def plainChar (c : Char) : Bool :=
  isWordChar c && !(c = '$' || c = '*' || c = '~') && !c.isWhitespace

def plainWordB (w : Word) : Bool :=
  w.expansions.isEmpty && !w.name.isEmpty && w.name.all plainChar

def plainTargetName : Str → Bool
  | [] => false
  | c :: r =>
    if c = '&' then !r.isEmpty && r.all plainChar
    else plainChar c && r.all plainChar

def plainRedirectB : Redirect → Bool
  | .input tgt => tgt.expansions.isEmpty && plainTargetName tgt.name
  | .output none tgt _ => tgt.expansions.isEmpty && plainTargetName tgt.name
  | .output (some src) tgt _ =>
    src.expansions.isEmpty && !src.name.isEmpty &&
      src.name.all Char.isDigit && tgt.expansions.isEmpty &&
      plainTargetName tgt.name

def plainMetaPre : Meta → Bool
  | .assignment dst val =>
    plainWordB dst && !(dst.name.contains '=') &&
      val.expansions.isEmpty && val.name.all plainChar
  | .redirect r => plainRedirectB r
  | .word _ => false

def plainMetaSuf : Meta → Bool
  | .word w => plainWordB w
  | .redirect r => plainRedirectB r
  | .assignment _ _ => false

def plainCmd (c : Command) : Bool :=
  plainWordB c.name && !(c.name.name.contains '=') &&
    c.prefixes.all plainMetaPre && c.suffixes.all plainMetaSuf

def plainCT : CommandType → Bool
  | .single c => plainCmd c
  | .pipeline cs => decide (2 ≤ cs.length) && cs.all plainCmd

def plainTree (t : SyntaxTree) : Bool := t.commands.all plainCT

/-- The token a plain meta lexes back to. -/
def metaToken : Meta → Token
  | .word w => .string w.name
  | .assignment dst val => .string (dst.name ++ '=' :: val.name)
  | .redirect (.input tgt) => .redirectInput tgt.name
  | .redirect (.output none tgt app) => .redirectOutput none tgt.name none app
  | .redirect (.output (some src) tgt app) =>
    .redirectOutput (some src.name) tgt.name none app

/-- The token sequence a plain command's render lexes back to. -/
def cmdTokens (c : Command) : List Token :=
  List.intersperse .space
    (c.prefixes.map metaToken ++ .string c.name.name :: c.suffixes.map metaToken)

/-- The token sequence a plain group's render lexes back to. -/
def groupTokens : CommandType → List Token
  | .single c => cmdTokens c
  | .pipeline cs => joinWith [.space, .pipe, .space] (cs.map cmdTokens)

/-- The token sequence a plain tree's render lexes back to. -/
def treeTokens (t : SyntaxTree) : List Token :=
  joinWith [.semicolon, .space] (t.commands.map groupTokens)

/-- What may follow a rendered word / target inside a rendered tree. -/
def SepHead (rest : List Char) : Prop :=
  rest = [] ∨ rest.head? = some ' ' ∨ rest.head? = some ';'

theorem takeWhile_append_all {α : Type} (p : α → Bool) (A B : List α)
    (hA : ∀ a ∈ A, p a = true)
    (hB : B = [] ∨ ∃ b B', B = b :: B' ∧ p b = false) :
    (A ++ B).takeWhile p = A ∧ (A ++ B).dropWhile p = B := by
  induction A with
  | nil =>
    rcases hB with rfl | ⟨b, B', rfl, hb⟩
    · exact ⟨rfl, rfl⟩
    · simp [List.takeWhile, List.dropWhile, hb]
  | cons a A' ih =>
    have ha : p a = true := hA a (List.mem_cons_self _ _)
    obtain ⟨iht, ihd⟩ := ih (fun x hx => hA x (List.mem_cons_of_mem _ hx))
    simp [List.takeWhile, List.dropWhile, ha, iht, ihd]

theorem plainChar_props {c : Char} (h : plainChar c = true) :
    ¬c = ' ' ∧ ¬c = ';' ∧ ¬c = '|' ∧ ¬c = '&' ∧ ¬c = '\'' ∧ ¬c = '"' ∧
      ¬c = '<' ∧ ¬c = '>' ∧ isWordChar c = true := by
  have hw : isWordChar c = true := by
    simp only [plainChar, Bool.and_eq_true] at h
    exact h.1.1
  have h2 := hw
  simp only [isWordChar, Bool.not_eq_true', Bool.or_eq_false_iff,
    decide_eq_false_iff_not] at h2
  obtain ⟨⟨⟨⟨⟨⟨⟨hsp, hsemi⟩, hpipe⟩, hamp⟩, hlt⟩, hgt⟩, hq⟩, hdq⟩ := h2
  exact ⟨hsp, hsemi, hpipe, hamp, hq, hdq, hlt, hgt, hw⟩

theorem SepHead.break {rest : List Char} (hr : SepHead rest) :
    rest = [] ∨ ∃ b B', rest = b :: B' ∧ isWordChar b = false := by
  rcases hr with rfl | hh | hh
  · exact Or.inl rfl
  · cases rest with
    | nil => cases hh
    | cons b tail =>
      obtain rfl : b = ' ' := by injection hh
      exact Or.inr ⟨' ', tail, rfl, by decide⟩
  · cases rest with
    | nil => cases hh
    | cons b tail =>
      obtain rfl : b = ';' := by injection hh
      exact Or.inr ⟨';', tail, rfl, by decide⟩

theorem SepHead.not_word {rest : List Char} (hr : SepHead rest) {b : Char}
    {B' : List Char} (heq : rest = b :: B') : isWordChar b = false := by
  rcases hr.break with rfl | ⟨b', B'', heq', hb⟩
  · cases heq
  · rw [heq'] at heq
    injection heq with h1 h2
    exact h1 ▸ hb

theorem plainChar_not_ws {c : Char} (h : plainChar c = true) :
    c.isWhitespace = false := by
  simp only [plainChar, Bool.and_eq_true, Bool.not_eq_true'] at h
  exact h.2

theorem digitChar_props {c : Char} (h : c.isDigit = true) :
    ¬c = ' ' ∧ ¬c = ';' ∧ ¬c = '|' ∧ ¬c = '&' ∧ ¬c = '\'' ∧ ¬c = '"' ∧
      ¬c = '<' ∧ ¬c = '>' ∧ isWordChar c = true ∧ c.isWhitespace = false := by
  have hne : ∀ d : Char, d.isDigit = false → ¬c = d := by
    intro d hd heq
    rw [heq] at h
    rw [h] at hd
    cases hd
  have h1 := hne ' ' (by decide)
  have h2 := hne ';' (by decide)
  have h3 := hne '|' (by decide)
  have h4 := hne '&' (by decide)
  have h5 := hne '\'' (by decide)
  have h6 := hne '"' (by decide)
  have h7 := hne '<' (by decide)
  have h8 := hne '>' (by decide)
  refine ⟨h1, h2, h3, h4, h5, h6, h7, h8, ?_, ?_⟩
  · simp [isWordChar, h1, h2, h3, h4, h5, h6, h7, h8]
  · cases hws : c.isWhitespace with
    | false => rfl
    | true =>
      exfalso
      simp only [Char.isWhitespace, Bool.or_eq_true, decide_eq_true_eq] at hws
      rcases hws with ((hc | hc) | hc) | hc
      · exact h1 hc
      · exact hne '\t' (by decide) hc
      · exact hne '\r' (by decide) hc
      · exact hne '\n' (by decide) hc

theorem dropWhile_of_none {α : Type} (p : α → Bool) (s : List α)
    (h : ∀ c ∈ s, p c = false) : s.dropWhile p = s := by
  cases s with
  | nil => rfl
  | cons c rest =>
    simp [List.dropWhile, h c (List.mem_cons_self _ _)]

theorem trim_of_no_ws {s : Str} (h : ∀ c ∈ s, c.isWhitespace = false) :
    trimStr s = s := by
  unfold trimStr
  rw [dropWhile_of_none _ _ h, dropWhile_of_none, List.reverse_reverse]
  intro c hc
  exact h c (List.mem_reverse.mp hc)

/-- The peel property: the rendered text of one item, followed by a
separator-headed rest, lexes to one token followed by the lex of the
rest (with enough fuel left). -/
def Peel (txt : Str) (tok : Token) : Prop :=
  ∀ rest fuel, SepHead rest → (txt ++ rest).length ≤ fuel →
    ∃ fuel', rest.length ≤ fuel' ∧
      lexF fuel (txt ++ rest) = tok :: lexF fuel' rest

theorem lexF_space_cons (rest : List Char) (fuel : Nat)
    (h : rest.length < fuel) :
    ∃ fuel', rest.length ≤ fuel' ∧
      lexF fuel (' ' :: rest) = .space :: lexF fuel' rest := by
  cases fuel with
  | zero => omega
  | succ f => exact ⟨f, by omega, by simp [lexF]⟩

theorem lexF_semicolon_cons (rest : List Char) (fuel : Nat)
    (h : rest.length < fuel) :
    ∃ fuel', rest.length ≤ fuel' ∧
      lexF fuel (';' :: rest) = .semicolon :: lexF fuel' rest := by
  cases fuel with
  | zero => omega
  | succ f => exact ⟨f, by omega, by simp [lexF]⟩

theorem lexF_pipe_cons (rest : List Char) (fuel : Nat)
    (h : rest.length < fuel) (hr : rest.head? ≠ some '|') :
    ∃ fuel', rest.length ≤ fuel' ∧
      lexF fuel ('|' :: rest) = .pipe :: lexF fuel' rest := by
  cases fuel with
  | zero => omega
  | succ f =>
    refine ⟨f, by omega, ?_⟩
    cases rest with
    | nil => simp [lexF]
    | cons b tail =>
      have hb : ¬b = '|' := fun hbe => hr (by rw [hbe]; rfl)
      simp [lexF, hb]

theorem word_peel {w : Str} (hw1 : w ≠ [])
    (hw2 : ∀ c ∈ w, plainChar c = true) : Peel w (.string w) := by
  intro rest fuel hr hfuel
  cases w with
  | nil => exact absurd rfl hw1
  | cons c w' =>
    cases fuel with
    | zero => simp at hfuel
    | succ f =>
      refine ⟨f, ?_, ?_⟩
      · simp only [List.length_append, List.length_cons] at hfuel
        omega
      · obtain ⟨hc1, hc2, hc3, hc4, hc5, hc6, hc7, hc8, hwc⟩ :=
          plainChar_props (hw2 c (List.mem_cons_self _ _))
        obtain ⟨hT, hD⟩ := takeWhile_append_all isWordChar w' rest
          (fun x hx =>
            (plainChar_props (hw2 x (List.mem_cons_of_mem _ hx))).2.2.2.2.2.2.2.2)
          hr.break
        simp only [List.cons_append, lexF, if_neg hc1, if_neg hc2, if_neg hc3,
          if_neg hc4, if_neg hc5, if_neg hc6, if_neg hc7, if_neg hc8,
          List.append_eq]
        rw [hT, hD]
        rcases hr with rfl | hh | hh
        · rfl
        · cases rest with
          | nil => cases hh
          | cons b tail =>
            obtain rfl : b = ' ' := by injection hh
            rfl
        · cases rest with
          | nil => cases hh
          | cons b tail =>
            obtain rfl : b = ';' := by injection hh
            rfl

theorem plainTargetName_head {tgt : Str} (h : plainTargetName tgt = true) :
    ∃ c tgt', tgt = c :: tgt' ∧ ¬c = ' ' ∧ ¬c = '>' := by
  cases tgt with
  | nil => simp [plainTargetName] at h
  | cons c tgt' =>
    by_cases hamp : c = '&'
    · exact ⟨c, tgt', rfl, by rw [hamp]; decide, by rw [hamp]; decide⟩
    · have hplain : plainChar c = true := by
        simp only [plainTargetName, if_neg hamp, Bool.and_eq_true] at h
        exact h.1
      obtain ⟨p1, _, _, _, _, _, _, p8, _⟩ := plainChar_props hplain
      exact ⟨c, tgt', rfl, p1, p8⟩

theorem lexTarget_plain {tgt : Str} (ht : plainTargetName tgt = true)
    {rest : List Char} (hr : SepHead rest) :
    lexTarget (tgt ++ rest) = (tgt, rest) := by
  cases tgt with
  | nil => simp [plainTargetName] at ht
  | cons c tgt' =>
    by_cases hamp : c = '&'
    · subst hamp
      have ht0 : (!tgt'.isEmpty && tgt'.all plainChar) = true := ht
      have ht' : tgt'.all plainChar = true := by
        simp only [Bool.and_eq_true] at ht0
        exact ht0.2
      obtain ⟨hT, hD⟩ := takeWhile_append_all isWordChar tgt' rest
        (fun x hx =>
          (plainChar_props (List.all_eq_true.mp ht' x hx)).2.2.2.2.2.2.2.2)
        hr.break
      simp only [List.cons_append, lexTarget]
      rw [hT, hD]
    · have hplain : plainChar c = true := by
        simp only [plainTargetName, if_neg hamp, Bool.and_eq_true] at ht
        exact ht.1
      have hall : ∀ x ∈ c :: tgt', plainChar x = true := by
        intro x hx
        rcases List.mem_cons.mp hx with rfl | hx'
        · exact hplain
        · simp only [plainTargetName, if_neg hamp, Bool.and_eq_true] at ht
          exact List.all_eq_true.mp ht.2 x hx'
      obtain ⟨hT, hD⟩ := takeWhile_append_all isWordChar (c :: tgt') rest
        (fun x hx => (plainChar_props (hall x hx)).2.2.2.2.2.2.2.2) hr.break
      have hred : lexTarget ((c :: tgt') ++ rest) =
          (List.takeWhile isWordChar ((c :: tgt') ++ rest),
           List.dropWhile isWordChar ((c :: tgt') ++ rest)) := by
        simp [lexTarget, hamp, List.takeWhile, List.dropWhile,
          (plainChar_props hplain).2.2.2.2.2.2.2.2]
      rw [hred, hT, hD]

theorem lexROT_ws_take {tgt : Str} (ht : plainTargetName tgt = true)
    (rest : List Char) :
    List.takeWhile (fun ch => decide (ch = ' '))
      (tgt ++ rest) = [] := by
  obtain ⟨c, tgt', htgt, hcsp, _⟩ := plainTargetName_head ht
  rw [htgt]
  simp [List.takeWhile, hcsp]

theorem lexROT_ws_drop {tgt : Str} (ht : plainTargetName tgt = true)
    (rest : List Char) :
    List.dropWhile (fun ch => decide (ch = ' '))
      (tgt ++ rest) = tgt ++ rest := by
  obtain ⟨c, tgt', htgt, hcsp, _⟩ := plainTargetName_head ht
  rw [htgt]
  simp [List.dropWhile, hcsp]

theorem lexROT_plain_app {tgt : Str} (ht : plainTargetName tgt = true)
    {rest : List Char} (hr : SepHead rest) (src : Option Str) :
    lexRedirectOutputTail src ('>' :: (tgt ++ rest)) =
      (.redirectOutput src tgt none true, rest) := by
  simp only [lexRedirectOutputTail, lexROT_ws_take ht, lexROT_ws_drop ht,
    lexTarget_plain ht hr]
  rfl

theorem lexROT_plain_noapp {tgt : Str} (ht : plainTargetName tgt = true)
    {rest : List Char} (hr : SepHead rest) (src : Option Str) :
    lexRedirectOutputTail src (tgt ++ rest) =
      (.redirectOutput src tgt none false, rest) := by
  obtain ⟨c, tgt', htgt, hcsp, hcgt⟩ := plainTargetName_head ht
  unfold lexRedirectOutputTail
  split
  · next r heq =>
    exfalso
    rw [htgt, List.cons_append] at heq
    injection heq with h1 _
    exact hcgt h1
  · simp only [lexROT_ws_take ht, lexROT_ws_drop ht, lexTarget_plain ht hr]
    rfl

theorem redirectIn_peel {tgt : Str} (ht : plainTargetName tgt = true) :
    Peel ('<' :: tgt) (.redirectInput tgt) := by
  intro rest fuel hr hfuel
  cases fuel with
  | zero => simp at hfuel
  | succ f =>
    refine ⟨f, ?_, ?_⟩
    · simp only [List.cons_append, List.length_cons, List.length_append]
        at hfuel
      omega
    · have hstep : lexF (f + 1) ('<' :: (tgt ++ rest)) =
          .redirectInput (lexTarget (tgt ++ rest)).1 ::
            lexF f (lexTarget (tgt ++ rest)).2 := rfl
      rw [List.cons_append, hstep, lexTarget_plain ht hr]

theorem redirectOutNone_peel {tgt : Str} (ht : plainTargetName tgt = true)
    (app : Bool) :
    Peel ('>' :: ((if app then ['>'] else []) ++ tgt))
      (.redirectOutput none tgt none app) := by
  intro rest fuel hr hfuel
  cases fuel with
  | zero => simp at hfuel
  | succ f =>
    refine ⟨f, ?_, ?_⟩
    · simp only [List.cons_append, List.length_cons, List.length_append]
        at hfuel
      omega
    · cases app with
      | true =>
        have hx : ('>' :: ((if (true : Bool) then ['>'] else []) ++ tgt)) ++
            rest = '>' :: ('>' :: (tgt ++ rest)) := by simp
        rw [hx]
        have hstep : lexF (f + 1) ('>' :: ('>' :: (tgt ++ rest))) =
            (lexRedirectOutputTail none ('>' :: (tgt ++ rest))).1 ::
              lexF f (lexRedirectOutputTail none ('>' :: (tgt ++ rest))).2 :=
          rfl
        rw [hstep, lexROT_plain_app ht hr]
      | false =>
        have hx : ('>' :: ((if (false : Bool) then ['>'] else []) ++ tgt)) ++
            rest = '>' :: (tgt ++ rest) := by simp
        rw [hx]
        have hstep : lexF (f + 1) ('>' :: (tgt ++ rest)) =
            (lexRedirectOutputTail none (tgt ++ rest)).1 ::
              lexF f (lexRedirectOutputTail none (tgt ++ rest)).2 := rfl
        rw [hstep, lexROT_plain_noapp ht hr]

theorem redirectOutSome_peel {src tgt : Str} (hs1 : src ≠ [])
    (hs2 : ∀ c ∈ src, c.isDigit = true)
    (ht : plainTargetName tgt = true) (app : Bool) :
    Peel (src ++ '>' :: ((if app then ['>'] else []) ++ tgt))
      (.redirectOutput (some src) tgt none app) := by
  intro rest fuel hr hfuel
  cases src with
  | nil => exact absurd rfl hs1
  | cons d src' =>
    cases fuel with
    | zero => simp at hfuel
    | succ f =>
      refine ⟨f, ?_, ?_⟩
      · simp only [List.cons_append, List.length_cons, List.length_append]
          at hfuel
        omega
      · obtain ⟨hd1, hd2, hd3, hd4, hd5, hd6, hd7, hd8, hdw, _⟩ :=
          digitChar_props (hs2 d (List.mem_cons_self _ _))
        have hBreak : ('>' :: ((if app then ['>'] else []) ++ (tgt ++ rest)))
            = [] ∨ ∃ b B',
              ('>' :: ((if app then ['>'] else []) ++ (tgt ++ rest)))
                = b :: B' ∧ isWordChar b = false :=
          Or.inr ⟨'>', _, rfl, by decide⟩
        obtain ⟨hT, hD⟩ := takeWhile_append_all isWordChar src'
          ('>' :: ((if app then ['>'] else []) ++ (tgt ++ rest)))
          (fun x hx =>
            (digitChar_props (hs2 x (List.mem_cons_of_mem _ hx))).2.2.2.2.2.2.2.2.1)
          hBreak
        have hall : (d :: src').all Char.isDigit = true :=
          List.all_eq_true.mpr hs2
        simp only [List.cons_append, List.append_assoc, lexF, if_neg hd1,
          if_neg hd2, if_neg hd3, if_neg hd4, if_neg hd5, if_neg hd6,
          if_neg hd7, if_neg hd8, List.append_eq]
        rw [hT, hD]
        split
        · next r heq =>
          injection heq with h1 h2
          subst h2
          rw [if_pos hall]
          cases app with
          | true =>
            have hx : (if (true : Bool) then ['>'] else []) ++ (tgt ++ rest) =
                '>' :: (tgt ++ rest) := by simp
            rw [hx, lexROT_plain_app ht hr]
          | false =>
            have hx : (if (false : Bool) then ['>'] else []) ++ (tgt ++ rest) =
                tgt ++ rest := by simp
            rw [hx, lexROT_plain_noapp ht hr]
        · next hne =>
          exact absurd rfl (hne _)

theorem plainWordB_props {w : Word} (h : plainWordB w = true) :
    w.expansions.isEmpty = true ∧ w.name ≠ [] ∧
      ∀ c ∈ w.name, plainChar c = true := by
  simp only [plainWordB, Bool.and_eq_true, Bool.not_eq_true'] at h
  refine ⟨h.1.1, ?_, List.all_eq_true.mp h.2⟩
  intro heq
  rw [heq] at h
  exact absurd h.1.2 (by simp)

/-- What both meta positions guarantee about the rendered text. -/
def plainMetaItem : Meta → Bool
  | .word w => plainWordB w
  | .assignment dst val =>
    plainWordB dst && val.expansions.isEmpty && val.name.all plainChar
  | .redirect r => plainRedirectB r

theorem plainMetaPre_item {m : Meta} (h : plainMetaPre m = true) :
    plainMetaItem m = true := by
  cases m with
  | word w => cases h
  | redirect r => exact h
  | assignment dst val =>
    simp only [plainMetaPre, Bool.and_eq_true] at h
    simp only [plainMetaItem, Bool.and_eq_true]
    exact ⟨⟨h.1.1.1, h.1.2⟩, h.2⟩

theorem plainMetaSuf_item {m : Meta} (h : plainMetaSuf m = true) :
    plainMetaItem m = true := by
  cases m with
  | word w => exact h
  | redirect r => exact h
  | assignment dst val => cases h

theorem plainRedirectB_facts {r : Redirect} (h : plainRedirectB r = true) :
    (∀ tgt, r = .input tgt → plainTargetName tgt.name = true) ∧
    (∀ tgt app, r = .output none tgt app → plainTargetName tgt.name = true) ∧
    (∀ src tgt app, r = .output (some src) tgt app →
      src.name ≠ [] ∧ (∀ c ∈ src.name, c.isDigit = true) ∧
        plainTargetName tgt.name = true) := by
  refine ⟨?_, ?_, ?_⟩
  · intro tgt heq
    subst heq
    simp only [plainRedirectB, Bool.and_eq_true] at h
    exact h.2
  · intro tgt app heq
    subst heq
    simp only [plainRedirectB, Bool.and_eq_true] at h
    exact h.2
  · intro src tgt app heq
    subst heq
    simp only [plainRedirectB, Bool.and_eq_true, Bool.not_eq_true'] at h
    refine ⟨?_, List.all_eq_true.mp h.1.1.2, h.2⟩
    intro heq2
    rw [heq2] at h
    exact absurd h.1.1.1.2 (by simp)

theorem metaItem_peel {m : Meta} (hm : plainMetaItem m = true) :
    Peel m.render (metaToken m) := by
  cases m with
  | word w =>
    obtain ⟨_, hne, hall⟩ := plainWordB_props hm
    exact word_peel hne hall
  | assignment dst val =>
    simp only [plainMetaItem, Bool.and_eq_true] at hm
    obtain ⟨⟨hdst, hve⟩, hvall⟩ := hm
    obtain ⟨_, hdne, hdall⟩ := plainWordB_props hdst
    have hne : dst.name ++ '=' :: val.name ≠ [] := by
      intro heq
      exact absurd (List.append_eq_nil.mp heq).1 hdne
    have hall : ∀ c ∈ dst.name ++ '=' :: val.name, plainChar c = true := by
      intro c hcmem
      rcases List.mem_append.mp hcmem with hm1 | hm2
      · exact hdall c hm1
      · rcases List.mem_cons.mp hm2 with rfl | hm3
        · decide
        · exact List.all_eq_true.mp hvall c hm3
    exact word_peel hne hall
  | redirect r =>
    obtain ⟨hin, houtN, houtS⟩ := plainRedirectB_facts hm
    cases r with
    | input tgt => exact redirectIn_peel (hin tgt rfl)
    | output src tgt app =>
      cases src with
      | none =>
        have ht := houtN tgt app rfl
        cases app with
        | true => exact redirectOutNone_peel ht true
        | false => exact redirectOutNone_peel ht false
      | some srcw =>
        obtain ⟨hs1, hs2, ht⟩ := houtS srcw tgt app rfl
        cases app with
        | true => exact redirectOutSome_peel hs1 hs2 ht true
        | false => exact redirectOutSome_peel hs1 hs2 ht false

theorem metaItem_render_no_ws {m : Meta} (hm : plainMetaItem m = true) :
    ∀ ch ∈ m.render, ch.isWhitespace = false := by
  cases m with
  | word w =>
    obtain ⟨_, _, hall⟩ := plainWordB_props hm
    exact fun ch hch => plainChar_not_ws (hall ch hch)
  | assignment dst val =>
    simp only [plainMetaItem, Bool.and_eq_true] at hm
    obtain ⟨⟨hdst, _⟩, hvall⟩ := hm
    obtain ⟨_, _, hdall⟩ := plainWordB_props hdst
    intro ch hch
    rcases List.mem_append.mp hch with hm1 | hm2
    · exact plainChar_not_ws (hdall ch hm1)
    · rcases List.mem_cons.mp hm2 with rfl | hm3
      · decide
      · exact plainChar_not_ws (List.all_eq_true.mp hvall ch hm3)
  | redirect r =>
    obtain ⟨hin, houtN, houtS⟩ := plainRedirectB_facts hm
    have htgt_ws : ∀ (tgt : Str), plainTargetName tgt = true →
        ∀ ch ∈ tgt, ch.isWhitespace = false := by
      intro tgt ht ch hch
      cases tgt with
      | nil => cases hch
      | cons c0 tgt' =>
        by_cases hamp : c0 = '&'
        · subst hamp
          have ht0 : (!tgt'.isEmpty && tgt'.all plainChar) = true := ht
          simp only [Bool.and_eq_true] at ht0
          rcases List.mem_cons.mp hch with rfl | hm3
          · decide
          · exact plainChar_not_ws (List.all_eq_true.mp ht0.2 ch hm3)
        · have ht0 : (plainChar c0 && tgt'.all plainChar) = true := by
            have := ht
            simp only [plainTargetName, if_neg hamp] at this
            exact this
          simp only [Bool.and_eq_true] at ht0
          rcases List.mem_cons.mp hch with rfl | hm3
          · exact plainChar_not_ws ht0.1
          · exact plainChar_not_ws (List.all_eq_true.mp ht0.2 ch hm3)
    cases r with
    | input tgt =>
      intro ch hch
      rcases List.mem_cons.mp hch with rfl | hm3
      · decide
      · exact htgt_ws tgt.name (hin tgt rfl) ch hm3
    | output src tgt app =>
      cases src with
      | none =>
        have ht := houtN tgt app rfl
        intro ch hch
        cases app with
        | false =>
          rcases List.mem_cons.mp hch with rfl | hm3
          · decide
          · exact htgt_ws tgt.name ht ch hm3
        | true =>
          rcases List.mem_cons.mp hch with rfl | hm3
          · decide
          · rcases List.mem_cons.mp hm3 with rfl | hm4
            · decide
            · exact htgt_ws tgt.name ht ch hm4
      | some srcw =>
        obtain ⟨_, hs2, ht⟩ := houtS srcw tgt app rfl
        intro ch hch
        cases app with
        | false =>
          rcases List.mem_append.mp hch with hm1 | hm2
          · exact (digitChar_props (hs2 ch hm1)).2.2.2.2.2.2.2.2.2
          · rcases List.mem_cons.mp hm2 with rfl | hm3
            · decide
            · exact htgt_ws tgt.name ht ch hm3
        | true =>
          rcases List.mem_append.mp hch with hm1 | hm2
          · exact (digitChar_props (hs2 ch hm1)).2.2.2.2.2.2.2.2.2
          · rcases List.mem_cons.mp hm2 with rfl | hm3
            · decide
            · rcases List.mem_cons.mp hm3 with rfl | hm4
              · decide
              · exact htgt_ws tgt.name ht ch hm4

theorem metaItem_render_ne_nil {m : Meta} (hm : plainMetaItem m = true) :
    m.render ≠ [] := by
  intro h
  cases m with
  | word w => exact (plainWordB_props hm).2.1 h
  | assignment dst val => exact absurd (List.append_eq_nil.mp h).2 (by simp)
  | redirect r =>
    cases r with
    | input tgt => simp [Meta.render] at h
    | output src tgt app =>
      cases src with
      | none => cases app <;> simp [Meta.render] at h
      | some srcw => cases app <;> simp [Meta.render] at h

theorem metaRender_word (w : Word) : Meta.render (.word w) = w.name := rfl

theorem joinWith_nil {α : Type} (sep : List α) : joinWith sep [] = [] := rfl

theorem joinWith_single {α : Type} (sep x : List α) :
    joinWith sep [x] = x := rfl

theorem joinWith_cons₂ {α : Type} (sep x y : List α) (xs : List (List α)) :
    joinWith sep (x :: y :: xs) = x ++ sep ++ joinWith sep (y :: xs) := rfl

theorem joinWith_ne_nil {α : Type} (sep x : List α) (xs : List (List α))
    (hx : x ≠ []) : joinWith sep (x :: xs) ≠ [] := by
  cases xs with
  | nil => exact hx
  | cons y ys =>
    intro h
    rw [joinWith_cons₂] at h
    exact hx (List.append_eq_nil.mp (List.append_eq_nil.mp h).1).1

theorem map_congr_mem {α β : Type} {f g : α → β} :
    ∀ {l : List α}, (∀ a ∈ l, f a = g a) → l.map f = l.map g
  | [], _ => rfl
  | a :: l, h => by
    simp only [List.map_cons]
    rw [h a (List.mem_cons_self _ _),
      map_congr_mem (fun x hx => h x (List.mem_cons_of_mem _ hx))]

theorem joinWith_append {α : Type} (sep : List α) :
    ∀ (A B : List (List α)), A ≠ [] → B ≠ [] →
      joinWith sep (A ++ B) = joinWith sep A ++ sep ++ joinWith sep B
  | [], _, hA, _ => absurd rfl hA
  | [a], B, _, hB => by
    cases B with
    | nil => exact absurd rfl hB
    | cons b B' =>
      show a ++ sep ++ joinWith sep (b :: B') = a ++ sep ++ joinWith sep (b :: B')
      rfl
  | a :: a2 :: A', B, _, hB => by
    have ih := joinWith_append sep (a2 :: A') B (by simp) hB
    rw [List.cons_append] at ih
    rw [List.cons_append, List.cons_append, joinWith_cons₂, ih,
      joinWith_cons₂]
    simp [List.append_assoc]

/-- Peeling a whole space-joined item list: each item's text lexes to its
token, with single spaces between items lexing to `.space`. -/
theorem peel_join_space :
    ∀ (items : List (Str × Token)), items ≠ [] →
      (∀ it ∈ items, Peel it.1 it.2) →
      ∀ rest fuel, SepHead rest →
        (joinWith [' '] (items.map Prod.fst) ++ rest).length ≤ fuel →
        ∃ fuel', rest.length ≤ fuel' ∧
          lexF fuel (joinWith [' '] (items.map Prod.fst) ++ rest) =
            List.intersperse Token.space (items.map Prod.snd) ++
              lexF fuel' rest
  | [], hne, _, _, _, _, _ => absurd rfl hne
  | [it], _, hp, rest, fuel, hr, hfuel =>
    hp it (List.mem_cons_self _ _) rest fuel hr hfuel
  | it :: it2 :: more, _, hp, rest, fuel, hr, hfuel => by
    have hshape : joinWith [' '] ((it :: it2 :: more).map Prod.fst) =
        it.1 ++ (' ' :: joinWith [' '] ((it2 :: more).map Prod.fst)) := by
      rw [List.map_cons, List.map_cons, joinWith_cons₂, ← List.map_cons]
      simp [List.append_assoc]
    have hre : (joinWith [' '] ((it :: it2 :: more).map Prod.fst)) ++ rest =
        it.1 ++ (' ' ::
          (joinWith [' '] ((it2 :: more).map Prod.fst) ++ rest)) := by
      rw [hshape]
      simp
    have hsh : SepHead
        (' ' :: (joinWith [' '] ((it2 :: more).map Prod.fst) ++ rest)) :=
      Or.inr (Or.inl rfl)
    have hfuel1 : (it.1 ++ (' ' ::
        (joinWith [' '] ((it2 :: more).map Prod.fst) ++ rest))).length ≤
          fuel := by
      rw [← hre]
      exact hfuel
    obtain ⟨f1, hb1, he1⟩ := hp it (List.mem_cons_self _ _) _ fuel hsh hfuel1
    have hlt : (joinWith [' '] ((it2 :: more).map Prod.fst) ++ rest).length <
        f1 := by
      simp only [List.length_cons] at hb1
      omega
    obtain ⟨f2, hb2, he2⟩ := lexF_space_cons _ f1 hlt
    obtain ⟨f3, hb3, he3⟩ :=
      peel_join_space (it2 :: more) (by simp)
        (fun x hx => hp x (List.mem_cons_of_mem _ hx)) rest f2 hr hb2
    refine ⟨f3, hb3, ?_⟩
    rw [hre, he1, he2, he3]
    rfl

/-- For a plain command, `Command::to_string` is the space-join of the
renders of all metas (prefixes, name word, suffixes): every trim is the
identity and no conditional separator is dropped. -/
theorem cmd_render_join {c : Command} (hc : plainCmd c = true) :
    Command.render c =
      joinWith [' ']
        ((c.prefixes ++ Meta.word c.name :: c.suffixes).map Meta.render) := by
  have hc' := hc
  simp only [plainCmd, Bool.and_eq_true] at hc'
  have hpre : ∀ m ∈ c.prefixes, plainMetaItem m = true := fun m hm =>
    plainMetaPre_item (List.all_eq_true.mp hc'.1.2 m hm)
  have hsuf : ∀ m ∈ c.suffixes, plainMetaItem m = true := fun m hm =>
    plainMetaSuf_item (List.all_eq_true.mp hc'.2 m hm)
  have htrimP : c.prefixes.map (fun m => trimStr m.render) =
      c.prefixes.map Meta.render :=
    map_congr_mem fun m hm =>
      trim_of_no_ws (metaItem_render_no_ws (hpre m hm))
  have htrimS : c.suffixes.map (fun m => trimStr m.render) =
      c.suffixes.map Meta.render :=
    map_congr_mem fun m hm =>
      trim_of_no_ws (metaItem_render_no_ws (hsuf m hm))
  have hren : Command.render c =
      (if (joinWith [' ']
            (c.prefixes.map fun m => trimStr m.render)).isEmpty then []
        else joinWith [' ']
            (c.prefixes.map fun m => trimStr m.render) ++ [' ']) ++
      c.name.name ++
      (if (joinWith [' ']
            (c.suffixes.map fun m => trimStr m.render)).isEmpty then []
        else [' ']) ++
      joinWith [' '] (c.suffixes.map fun m => trimStr m.render) := rfl
  rw [hren, htrimP, htrimS]
  cases hP : c.prefixes with
  | nil =>
    cases hS : c.suffixes with
    | nil => simp [joinWith_nil, joinWith_single, metaRender_word]
    | cons s ss =>
      have hSm : s ∈ c.suffixes := by
        rw [hS]
        exact List.mem_cons_self s ss
      have hSne : joinWith [' ']
          (Meta.render s :: ss.map Meta.render) ≠ [] :=
        joinWith_ne_nil _ _ _ (metaItem_render_ne_nil (hsuf s hSm))
      simp [joinWith_nil, joinWith_cons₂, hSne, metaRender_word,
        List.append_assoc]
  | cons p ps =>
    have hPm : p ∈ c.prefixes := by
      rw [hP]
      exact List.mem_cons_self p ps
    have hPne : joinWith [' ']
        (Meta.render p :: ps.map Meta.render) ≠ [] :=
      joinWith_ne_nil _ _ _ (metaItem_render_ne_nil (hpre p hPm))
    have hjapp : joinWith [' ']
        (((p :: ps) ++ Meta.word c.name :: c.suffixes).map Meta.render) =
        joinWith [' '] ((p :: ps).map Meta.render) ++ [' '] ++
          joinWith [' ']
            ((Meta.word c.name :: c.suffixes).map Meta.render) := by
      rw [List.map_append]
      exact joinWith_append [' '] _ _ (by simp) (by simp)
    rw [hjapp]
    cases hS : c.suffixes with
    | nil =>
      simp [joinWith_nil, joinWith_single, hPne, metaRender_word,
        List.append_assoc]
    | cons s ss =>
      have hSm : s ∈ c.suffixes := by
        rw [hS]
        exact List.mem_cons_self s ss
      have hSne : joinWith [' ']
          (Meta.render s :: ss.map Meta.render) ≠ [] :=
        joinWith_ne_nil _ _ _ (metaItem_render_ne_nil (hsuf s hSm))
      simp [joinWith_cons₂, hPne, hSne, metaRender_word,
        List.append_assoc]

theorem cmd_metas_item {c : Command} (hc : plainCmd c = true) :
    ∀ m ∈ c.prefixes ++ Meta.word c.name :: c.suffixes,
      plainMetaItem m = true := by
  simp only [plainCmd, Bool.and_eq_true] at hc
  intro m hm
  rcases List.mem_append.mp hm with h1 | h2
  · exact plainMetaPre_item (List.all_eq_true.mp hc.1.2 m h1)
  · rcases List.mem_cons.mp h2 with rfl | h3
    · exact hc.1.1.1
    · exact plainMetaSuf_item (List.all_eq_true.mp hc.2 m h3)

/-- Peeling a whole plain command: its render lexes to `cmdTokens`. -/
theorem cmd_peel {c : Command} (hc : plainCmd c = true) :
    ∀ rest fuel, SepHead rest →
      (Command.render c ++ rest).length ≤ fuel →
      ∃ fuel', rest.length ≤ fuel' ∧
        lexF fuel (Command.render c ++ rest) =
          cmdTokens c ++ lexF fuel' rest := by
  intro rest fuel hr hfuel
  have hitems := cmd_metas_item hc
  have hrender := cmd_render_join hc
  have hmap1 : ((c.prefixes ++ Meta.word c.name :: c.suffixes).map
      (fun m => (m.render, metaToken m))).map Prod.fst =
      (c.prefixes ++ Meta.word c.name :: c.suffixes).map Meta.render := by
    rw [List.map_map]
    rfl
  have hmap2 : ((c.prefixes ++ Meta.word c.name :: c.suffixes).map
      (fun m => (m.render, metaToken m))).map Prod.snd =
      (c.prefixes ++ Meta.word c.name :: c.suffixes).map metaToken := by
    rw [List.map_map]
    rfl
  have hne : (c.prefixes ++ Meta.word c.name :: c.suffixes).map
      (fun m => (m.render, metaToken m)) ≠ [] := by
    intro h
    have h2 := List.map_eq_nil_iff.mp h
    exact absurd (List.append_eq_nil.mp h2).2 (by simp)
  have hp : ∀ it ∈ (c.prefixes ++ Meta.word c.name :: c.suffixes).map
      (fun m => (m.render, metaToken m)), Peel it.1 it.2 := by
    intro it hit
    obtain ⟨m, hm, rfl⟩ := List.mem_map.mp hit
    exact metaItem_peel (hitems m hm)
  obtain ⟨fuel', hb, heq⟩ := peel_join_space _ hne hp rest fuel hr
    (by rw [hmap1, ← hrender]; exact hfuel)
  refine ⟨fuel', hb, ?_⟩
  rw [hrender, ← hmap1, heq, hmap2]
  have hct : cmdTokens c = List.intersperse Token.space
      ((c.prefixes ++ Meta.word c.name :: c.suffixes).map metaToken) := by
    simp [cmdTokens, List.map_append, List.map_cons, metaToken]
  rw [hct]

theorem lexF_nil (fuel : Nat) : lexF fuel [] = [] := by
  cases fuel <;> rfl

/-- Peeling a pipe-joined command list: each command's render lexes to
its `cmdTokens`, with each `" | "` separator lexing to
`space, pipe, space`. -/
theorem pipe_join_peel :
    ∀ (cs : List Command), cs ≠ [] → (∀ cm ∈ cs, plainCmd cm = true) →
      ∀ rest fuel, SepHead rest →
        (joinWith [' ', '|', ' '] (cs.map Command.render) ++ rest).length ≤
          fuel →
        ∃ fuel', rest.length ≤ fuel' ∧
          lexF fuel (joinWith [' ', '|', ' '] (cs.map Command.render) ++
              rest) =
            joinWith [Token.space, Token.pipe, Token.space]
                (cs.map cmdTokens) ++ lexF fuel' rest
  | [], hne, _, _, _, _, _ => absurd rfl hne
  | [cm], _, hp, rest, fuel, hr, hfuel =>
    cmd_peel (hp cm (List.mem_cons_self _ _)) rest fuel hr hfuel
  | cm :: cm2 :: more, _, hp, rest, fuel, hr, hfuel => by
    have hshape : joinWith [' ', '|', ' ']
        ((cm :: cm2 :: more).map Command.render) =
        Command.render cm ++ (' ' :: '|' :: ' ' ::
          joinWith [' ', '|', ' '] ((cm2 :: more).map Command.render)) := by
      rw [List.map_cons, List.map_cons, joinWith_cons₂, ← List.map_cons]
      simp [List.append_assoc]
    have hre : joinWith [' ', '|', ' ']
        ((cm :: cm2 :: more).map Command.render) ++ rest =
        Command.render cm ++ (' ' :: '|' :: ' ' ::
          (joinWith [' ', '|', ' '] ((cm2 :: more).map Command.render) ++
            rest)) := by
      rw [hshape]
      simp
    have hsh : SepHead (' ' :: '|' :: ' ' ::
        (joinWith [' ', '|', ' '] ((cm2 :: more).map Command.render) ++
          rest)) :=
      Or.inr (Or.inl rfl)
    have hfuel1 : (Command.render cm ++ (' ' :: '|' :: ' ' ::
        (joinWith [' ', '|', ' '] ((cm2 :: more).map Command.render) ++
          rest))).length ≤ fuel := by
      rw [← hre]
      exact hfuel
    obtain ⟨f1, hb1, he1⟩ :=
      cmd_peel (hp cm (List.mem_cons_self _ _)) _ fuel hsh hfuel1
    obtain ⟨f2, hb2, he2⟩ := lexF_space_cons
      ('|' :: ' ' ::
        (joinWith [' ', '|', ' '] ((cm2 :: more).map Command.render) ++
          rest)) f1
      (by simp only [List.length_cons] at hb1 ⊢; omega)
    obtain ⟨f3, hb3, he3⟩ := lexF_pipe_cons
      (' ' ::
        (joinWith [' ', '|', ' '] ((cm2 :: more).map Command.render) ++
          rest)) f2
      (by simp only [List.length_cons] at hb2 ⊢; omega) (by simp)
    obtain ⟨f4, hb4, he4⟩ := lexF_space_cons
      (joinWith [' ', '|', ' '] ((cm2 :: more).map Command.render) ++
        rest) f3
      (by simp only [List.length_cons] at hb3 ⊢; omega)
    obtain ⟨f5, hb5, he5⟩ :=
      pipe_join_peel (cm2 :: more) (by simp)
        (fun x hx => hp x (List.mem_cons_of_mem _ hx)) rest f4 hr hb4
    refine ⟨f5, hb5, ?_⟩
    rw [hre, he1, he2, he3, he4, he5]
    simp only [List.map_cons, joinWith_cons₂]
    simp [List.append_assoc]

/-- Peeling a rendered command group. -/
theorem group_peel {g : CommandType} (hg : plainCT g = true) :
    ∀ rest fuel, SepHead rest →
      (CommandType.render g ++ rest).length ≤ fuel →
      ∃ fuel', rest.length ≤ fuel' ∧
        lexF fuel (CommandType.render g ++ rest) =
          groupTokens g ++ lexF fuel' rest := by
  cases g with
  | single cm => exact cmd_peel hg
  | pipeline cs =>
    simp only [plainCT, Bool.and_eq_true, decide_eq_true_eq] at hg
    have hne : cs ≠ [] := by
      intro h
      rw [h] at hg
      simp at hg
    have hsep : (" | ".toList : Str) = [' ', '|', ' '] := rfl
    intro rest fuel hr hfuel
    have := pipe_join_peel cs hne
      (fun cm hm => List.all_eq_true.mp hg.2 cm hm) rest fuel hr
      (by rw [show CommandType.render (.pipeline cs) =
          joinWith [' ', '|', ' '] (cs.map Command.render) from rfl]
            at hfuel
          exact hfuel)
    exact this

/-- Peeling a semicolon-joined group list. -/
theorem tree_join_peel :
    ∀ (gs : List CommandType), gs ≠ [] →
      (∀ g ∈ gs, plainCT g = true) →
      ∀ rest fuel, SepHead rest →
        (joinWith [';', ' '] (gs.map CommandType.render) ++ rest).length ≤
          fuel →
        ∃ fuel', rest.length ≤ fuel' ∧
          lexF fuel (joinWith [';', ' '] (gs.map CommandType.render) ++
              rest) =
            joinWith [Token.semicolon, Token.space] (gs.map groupTokens) ++
              lexF fuel' rest
  | [], hne, _, _, _, _, _ => absurd rfl hne
  | [g], _, hp, rest, fuel, hr, hfuel =>
    group_peel (hp g (List.mem_cons_self _ _)) rest fuel hr hfuel
  | g :: g2 :: more, _, hp, rest, fuel, hr, hfuel => by
    have hshape : joinWith [';', ' ']
        ((g :: g2 :: more).map CommandType.render) =
        CommandType.render g ++ (';' :: ' ' ::
          joinWith [';', ' '] ((g2 :: more).map CommandType.render)) := by
      rw [List.map_cons, List.map_cons, joinWith_cons₂, ← List.map_cons]
      simp [List.append_assoc]
    have hre : joinWith [';', ' ']
        ((g :: g2 :: more).map CommandType.render) ++ rest =
        CommandType.render g ++ (';' :: ' ' ::
          (joinWith [';', ' '] ((g2 :: more).map CommandType.render) ++
            rest)) := by
      rw [hshape]
      simp
    have hsh : SepHead (';' :: ' ' ::
        (joinWith [';', ' '] ((g2 :: more).map CommandType.render) ++
          rest)) :=
      Or.inr (Or.inr rfl)
    have hfuel1 : (CommandType.render g ++ (';' :: ' ' ::
        (joinWith [';', ' '] ((g2 :: more).map CommandType.render) ++
          rest))).length ≤ fuel := by
      rw [← hre]
      exact hfuel
    obtain ⟨f1, hb1, he1⟩ :=
      group_peel (hp g (List.mem_cons_self _ _)) _ fuel hsh hfuel1
    obtain ⟨f2, hb2, he2⟩ := lexF_semicolon_cons
      (' ' ::
        (joinWith [';', ' '] ((g2 :: more).map CommandType.render) ++
          rest)) f1
      (by simp only [List.length_cons] at hb1 ⊢; omega)
    obtain ⟨f3, hb3, he3⟩ := lexF_space_cons
      (joinWith [';', ' '] ((g2 :: more).map CommandType.render) ++ rest)
      f2
      (by simp only [List.length_cons] at hb2 ⊢; omega)
    obtain ⟨f4, hb4, he4⟩ :=
      tree_join_peel (g2 :: more) (by simp)
        (fun x hx => hp x (List.mem_cons_of_mem _ hx)) rest f3 hr hb3
    refine ⟨f4, hb4, ?_⟩
    rw [hre, he1, he2, he3, he4]
    simp only [List.map_cons, joinWith_cons₂]
    simp [List.append_assoc]

/-- For a plain tree, the lexer recovers exactly the canonical token
sequence from the render. -/
theorem lex_render {t : SyntaxTree} (ht : plainTree t = true) :
    lex (SyntaxTree.render t) = treeTokens t := by
  cases hg : t.commands with
  | nil =>
    have hre : SyntaxTree.render t = [] := by
      rw [show SyntaxTree.render t =
        joinWith "; ".toList (t.commands.map CommandType.render) from rfl,
        hg]
      rfl
    rw [hre, show treeTokens t =
      joinWith [Token.semicolon, Token.space] (t.commands.map groupTokens)
        from rfl, hg]
    rfl
  | cons g gs =>
    have hsep : ("; ".toList : Str) = [';', ' '] := rfl
    have hre : SyntaxTree.render t =
        joinWith [';', ' '] ((g :: gs).map CommandType.render) := by
      rw [show SyntaxTree.render t =
        joinWith "; ".toList (t.commands.map CommandType.render) from rfl,
        hg, hsep]
    have hp : ∀ x ∈ g :: gs, plainCT x = true := by
      intro x hx
      apply List.all_eq_true.mp ht
      rw [hg]
      exact hx
    obtain ⟨fuel', _, heq⟩ := tree_join_peel (g :: gs) (by simp) hp []
      (SyntaxTree.render t).length (Or.inl rfl)
      (by rw [← hre]; simp)
    simp only [List.append_nil, lexF_nil] at heq
    show lexF (SyntaxTree.render t).length (SyntaxTree.render t) =
      treeTokens t
    rw [hre] at heq ⊢
    rw [heq]
    rw [show treeTokens t =
      joinWith [Token.semicolon, Token.space] (t.commands.map groupTokens)
        from rfl, hg]

/-- Characters that trigger nothing in `scanWord` (`parse_word`'s
expansion scan): everything except `$`, `*` and `~`. -/
def scanInert (c : Char) : Bool := !(c = '$' || c = '*' || c = '~')

theorem plainChar_scanInert {c : Char} (h : plainChar c = true) :
    scanInert c = true := by
  simp only [plainChar, Bool.and_eq_true] at h
  exact h.1.2

theorem digit_scanInert {c : Char} (h : c.isDigit = true) :
    scanInert c = true := by
  have hne : ∀ d : Char, d.isDigit = false → ¬c = d := by
    intro d hd heq
    rw [heq] at h
    rw [h] at hd
    cases hd
  simp [scanInert, hne '$' (by decide), hne '*' (by decide),
    hne '~' (by decide)]

theorem plainTargetName_scanInert {s : Str} (h : plainTargetName s = true) :
    ∀ c ∈ s, scanInert c = true := by
  cases s with
  | nil => intro c hc; cases hc
  | cons c0 r =>
    by_cases hamp : c0 = '&'
    · subst hamp
      have h0 : (!r.isEmpty && r.all plainChar) = true := h
      simp only [Bool.and_eq_true] at h0
      intro c hc
      rcases List.mem_cons.mp hc with rfl | hm
      · decide
      · exact plainChar_scanInert (List.all_eq_true.mp h0.2 c hm)
    · have h0 : (plainChar c0 && r.all plainChar) = true := by
        have := h
        simp only [plainTargetName, if_neg hamp] at this
        exact this
      simp only [Bool.and_eq_true] at h0
      intro c hc
      rcases List.mem_cons.mp hc with rfl | hm
      · exact plainChar_scanInert h0.1
      · exact plainChar_scanInert (List.all_eq_true.mp h0.2 c hm)

/-- The expansion scan finds nothing in a string of inert characters. -/
theorem scanWord_inert (rec : Str → Except RunError SyntaxTree)
    (mode : ExpansionType) :
    ∀ (s : Str) (fuel index : Nat) (prev : Option Char)
      (acc : List Expansion), (∀ c ∈ s, scanInert c = true) →
      s.length ≤ fuel → scanWord rec mode fuel s index prev acc = .ok acc
  | [], fuel, _, _, _, _, _ => by cases fuel <;> rfl
  | c :: rest, 0, _, _, _, _, hlen => by simp at hlen
  | c :: rest, fuel + 1, index, prev, acc, hp, hlen => by
    have hc := hp c (List.mem_cons_self _ _)
    simp only [scanInert, Bool.not_eq_true', Bool.or_eq_false_iff,
      decide_eq_false_iff_not] at hc
    obtain ⟨⟨h1, h2⟩, h3⟩ := hc
    simp only [scanWord]
    rw [if_neg h1, if_neg (fun hh => h2 hh.1), if_neg (fun hh => h3 hh.1)]
    exact scanWord_inert rec mode rest fuel (index + 1) (some c) acc
      (fun x hx => hp x (List.mem_cons_of_mem _ hx))
      (by simp only [List.length_cons] at hlen; omega)

theorem parseWordGiven_inert (rec : Str → Except RunError SyntaxTree)
    {s : Str} (hs : ∀ c ∈ s, scanInert c = true) :
    parseWordGiven rec s .all = .ok (.mk s []) := by
  show (match scanWord rec .all s.length s 0 none [] with
    | Except.error err => Except.error err
    | Except.ok exps => Except.ok (Word.mk s exps)) =
    Except.ok (Word.mk s [])
  rw [scanWord_inert rec .all s s.length 0 none [] hs (le_refl _)]

theorem parseWordGiven_vc_inert (rec : Str → Except RunError SyntaxTree)
    {s : Str} (hs : ∀ c ∈ s, scanInert c = true) :
    parseWordGiven rec s .variablesAndCommands = .ok (.mk s []) := by
  show (match scanWord rec .variablesAndCommands s.length s 0 none [] with
    | Except.error err => Except.error err
    | Except.ok exps => Except.ok (Word.mk s exps)) =
    Except.ok (Word.mk s [])
  rw [scanWord_inert rec .variablesAndCommands s s.length 0 none [] hs
    (le_refl _)]

theorem word_eta {w : Word} (h : w.expansions = []) :
    Word.mk w.name [] = w := by
  cases w with
  | mk n e =>
    have h' : e = [] := h
    subst h'
    rfl

theorem splitOnce_none (c : Char) :
    ∀ (s : Str), (∀ a ∈ s, ¬a = c) → splitOnce c s = none
  | [], _ => rfl
  | a :: rest, h => by
    rw [splitOnce, if_neg (h a (List.mem_cons_self _ _)),
      splitOnce_none c rest (fun x hx => h x (List.mem_cons_of_mem _ hx))]

theorem splitOnce_first (c : Char) :
    ∀ (A B : Str), (∀ a ∈ A, ¬a = c) →
      splitOnce c (A ++ c :: B) = some (A, B)
  | [], B, _ => by
    rw [List.nil_append, splitOnce, if_pos rfl]
  | a :: A', B, h => by
    rw [List.cons_append, splitOnce, if_neg (h a (List.mem_cons_self _ _)),
      splitOnce_first c A' B (fun x hx => h x (List.mem_cons_of_mem _ hx))]

theorem contains_false_not_mem {s : Str} {c : Char}
    (h : s.contains c = false) : ∀ a ∈ s, ¬a = c := by
  intro a ha heq
  subst heq
  have h2 : s.elem a = false := h
  rw [List.elem_eq_mem] at h2
  simp only [decide_eq_false_iff_not] at h2
  exact h2 ha

/-- `parse_meta` on a plain word token in non-prefix position. -/
theorem parseMetaGiven_word_suf (rec : Str → Except RunError SyntaxTree)
    {w : Word} (hw : plainWordB w = true) :
    parseMetaGiven rec (.string w.name) false = .ok (some (.word w)) := by
  obtain ⟨he, _, hall⟩ := plainWordB_props hw
  have hw' := parseWordGiven_inert rec
    (fun c hc => plainChar_scanInert (hall c hc))
  simp [parseMetaGiven, hw', Except.bind, bind, pure, Except.pure,
    word_eta (List.isEmpty_iff.mp he)]

/-- `parse_meta` on a plain word token in prefix position (the command
name): no `=` in the text, so no assignment split happens. -/
theorem parseMetaGiven_word_pre (rec : Str → Except RunError SyntaxTree)
    {w : Word} (hw : plainWordB w = true)
    (hne : w.name.contains '=' = false) :
    parseMetaGiven rec (.string w.name) true = .ok (some (.word w)) := by
  obtain ⟨he, _, hall⟩ := plainWordB_props hw
  have hsplit := splitOnce_none '=' w.name (contains_false_not_mem hne)
  have hw' := parseWordGiven_inert rec
    (fun c hc => plainChar_scanInert (hall c hc))
  simp [parseMetaGiven, hsplit, hw', Except.bind, bind, pure, Except.pure,
    word_eta (List.isEmpty_iff.mp he)]

/-- `parse_meta` on a plain assignment token in prefix position. -/
theorem parseMetaGiven_assign (rec : Str → Except RunError SyntaxTree)
    {dst val : Word} (hm : plainMetaPre (.assignment dst val) = true) :
    parseMetaGiven rec (.string (dst.name ++ '=' :: val.name)) true =
      .ok (some (.assignment dst val)) := by
  simp only [plainMetaPre, Bool.and_eq_true, Bool.not_eq_true'] at hm
  obtain ⟨⟨⟨hdst, hdne⟩, hve⟩, hvall⟩ := hm
  obtain ⟨hde, _, hdall⟩ := plainWordB_props hdst
  have hsplit := splitOnce_first '=' dst.name val.name
    (contains_false_not_mem hdne)
  have hval := parseWordGiven_inert rec
    (fun c hc => plainChar_scanInert (List.all_eq_true.mp hvall c hc))
  have hdstW : parseWordGiven rec dst.name .noExpansion =
      .ok (.mk dst.name []) := rfl
  simp [parseMetaGiven, hsplit, hval, hdstW, Except.bind, bind, pure,
    Except.pure, word_eta (List.isEmpty_iff.mp hde),
    word_eta (List.isEmpty_iff.mp hve)]

/-- `parse_meta` on a plain input-redirect token. -/
theorem parseMetaGiven_rin (rec : Str → Except RunError SyntaxTree)
    {tgt : Word} (hm : plainRedirectB (.input tgt) = true) (b : Bool) :
    parseMetaGiven rec (.redirectInput tgt.name) b =
      .ok (some (.redirect (.input tgt))) := by
  simp only [plainRedirectB, Bool.and_eq_true] at hm
  have htgt := parseWordGiven_inert rec (plainTargetName_scanInert hm.2)
  simp [parseMetaGiven, htgt, Except.bind, bind, pure, Except.pure,
    word_eta (List.isEmpty_iff.mp hm.1)]

/-- `parse_meta` on a plain output-redirect token without a source
descriptor. -/
theorem parseMetaGiven_routN (rec : Str → Except RunError SyntaxTree)
    {tgt : Word} {app : Bool}
    (hm : plainRedirectB (.output none tgt app) = true) (b : Bool) :
    parseMetaGiven rec (.redirectOutput none tgt.name none app) b =
      .ok (some (.redirect (.output none tgt app))) := by
  simp only [plainRedirectB, Bool.and_eq_true] at hm
  have htgt := parseWordGiven_inert rec (plainTargetName_scanInert hm.2)
  simp [parseMetaGiven, htgt, Except.bind, bind, pure, Except.pure,
    word_eta (List.isEmpty_iff.mp hm.1)]

/-- `parse_meta` on a plain output-redirect token with a source
descriptor. -/
theorem parseMetaGiven_routS (rec : Str → Except RunError SyntaxTree)
    {src tgt : Word} {app : Bool}
    (hm : plainRedirectB (.output (some src) tgt app) = true) (b : Bool) :
    parseMetaGiven rec (.redirectOutput (some src.name) tgt.name none app)
      b = .ok (some (.redirect (.output (some src) tgt app))) := by
  simp only [plainRedirectB, Bool.and_eq_true, Bool.not_eq_true'] at hm
  have hsrc := parseWordGiven_inert rec
    (fun c hc => digit_scanInert (List.all_eq_true.mp hm.1.1.2 c hc))
  have htgt := parseWordGiven_inert rec (plainTargetName_scanInert hm.2)
  simp [parseMetaGiven, hsrc, htgt, Except.bind, bind, pure, Except.pure,
    word_eta (List.isEmpty_iff.mp hm.1.1.1.1),
    word_eta (List.isEmpty_iff.mp hm.1.2)]

theorem command_eta (c : Command) :
    Command.mk c.name c.prefixes c.suffixes = c := by
  cases c
  rfl

theorem tree_eta (t : SyntaxTree) : SyntaxTree.mk t.commands = t := by
  cases t
  rfl

theorem intersperse_cons₂ {α : Type} (sep x y : α) (zs : List α) :
    List.intersperse sep (x :: y :: zs) =
      x :: sep :: List.intersperse sep (y :: zs) := rfl

theorem intersperse_append {α : Type} (sep : α) :
    ∀ (A B : List α), A ≠ [] → B ≠ [] →
      List.intersperse sep (A ++ B) =
        List.intersperse sep A ++ sep :: List.intersperse sep B
  | [], _, hA, _ => absurd rfl hA
  | [a], B, _, hB => by
    cases B with
    | nil => exact absurd rfl hB
    | cons b B' => rfl
  | a :: a2 :: A', B, _, hB => by
    have ih := intersperse_append sep (a2 :: A') B (by simp) hB
    rw [List.cons_append] at ih
    rw [List.cons_append, List.cons_append, intersperse_cons₂, ih,
      intersperse_cons₂]
    rfl

theorem loop_space (rec : Str → Except RunError SyntaxTree)
    (R : List Token) (n : Option Word) (p s : List Meta) :
    parseCommandLoop rec (Token.space :: R) n p s =
      parseCommandLoop rec R n p s := rfl

/-- One canonical suffix token updates the loop state by appending the
meta to the suffixes. -/
theorem loop_suf_step (rec : Str → Except RunError SyntaxTree)
    {m : Meta} (hm : plainMetaSuf m = true) (w : Word)
    (R : List Token) (pres sufs : List Meta) :
    parseCommandLoop rec (metaToken m :: R) (some w) pres sufs =
      parseCommandLoop rec R (some w) pres (sufs ++ [m]) := by
  cases m with
  | assignment dst val => cases hm
  | word w' =>
    have hpm := parseMetaGiven_word_suf rec (hm : plainWordB w' = true)
    simp only [metaToken, parseCommandLoop, Option.isNone_some, hpm]
  | redirect r =>
    cases r with
    | input tgt =>
      have hpm := parseMetaGiven_rin rec hm false
      simp only [metaToken, parseCommandLoop, Option.isNone_some, hpm]
    | output src tgt app =>
      cases src with
      | none =>
        have hrb : plainRedirectB (.output none tgt app) = true := hm
        have hpm := parseMetaGiven_routN rec hrb false
        simp only [metaToken, parseCommandLoop, Option.isNone_some, hpm]
      | some srcw =>
        have hrb : plainRedirectB (.output (some srcw) tgt app) = true := hm
        have hpm := parseMetaGiven_routS rec hrb false
        simp only [metaToken, parseCommandLoop, Option.isNone_some, hpm]

/-- One canonical prefix token updates the loop state by appending the
meta to the prefixes. -/
theorem loop_pre_step (rec : Str → Except RunError SyntaxTree)
    {m : Meta} (hm : plainMetaPre m = true)
    (R : List Token) (pres sufs : List Meta) :
    parseCommandLoop rec (metaToken m :: R) none pres sufs =
      parseCommandLoop rec R none (pres ++ [m]) sufs := by
  cases m with
  | word w' => cases hm
  | assignment dst val =>
    have hpm := parseMetaGiven_assign rec hm
    simp only [metaToken, parseCommandLoop, Option.isNone_none, hpm]
  | redirect r =>
    cases r with
    | input tgt =>
      have hpm := parseMetaGiven_rin rec hm true
      simp only [metaToken, parseCommandLoop, Option.isNone_none, hpm]
    | output src tgt app =>
      cases src with
      | none =>
        have hrb : plainRedirectB (.output none tgt app) = true := hm
        have hpm := parseMetaGiven_routN rec hrb true
        simp only [metaToken, parseCommandLoop, Option.isNone_none, hpm]
      | some srcw =>
        have hrb : plainRedirectB (.output (some srcw) tgt app) = true := hm
        have hpm := parseMetaGiven_routS rec hrb true
        simp only [metaToken, parseCommandLoop, Option.isNone_none, hpm]

/-- The first plain string token becomes the command name. -/
theorem loop_name_step (rec : Str → Except RunError SyntaxTree)
    {w : Word} (hw : plainWordB w = true)
    (hne : w.name.contains '=' = false)
    (R : List Token) (pres sufs : List Meta) :
    parseCommandLoop rec (Token.string w.name :: R) none pres sufs =
      parseCommandLoop rec R (some w) pres sufs := by
  have hpm := parseMetaGiven_word_pre rec hw hne
  simp only [parseCommandLoop, Option.isNone_none, hpm]

/-- Walking all canonical prefix tokens. -/
theorem loop_pres_walk (rec : Str → Except RunError SyntaxTree) :
    ∀ (ps : List Meta), (∀ m ∈ ps, plainMetaPre m = true) →
      ∀ (R : List Token) (pres sufs : List Meta),
        parseCommandLoop rec
          (List.intersperse Token.space (ps.map metaToken) ++ R) none pres
          sufs = parseCommandLoop rec R none (pres ++ ps) sufs
  | [], _, R, pres, sufs => by simp
  | [p], hp, R, pres, sufs => by
    show parseCommandLoop rec (metaToken p :: R) none pres sufs = _
    rw [loop_pre_step rec (hp p (List.mem_cons_self _ _)) R pres sufs]
  | p :: p2 :: more, hp, R, pres, sufs => by
    have hshape : List.intersperse Token.space
        ((p :: p2 :: more).map metaToken) ++ R =
        metaToken p :: Token.space ::
          (List.intersperse Token.space ((p2 :: more).map metaToken) ++
            R) := by
      simp [intersperse_cons₂]
    rw [hshape, loop_pre_step rec (hp p (List.mem_cons_self _ _)),
      loop_space,
      loop_pres_walk rec (p2 :: more)
        (fun x hx => hp x (List.mem_cons_of_mem _ hx)) R (pres ++ [p])
        sufs]
    simp [List.append_assoc]

/-- Walking all canonical suffix tokens. -/
theorem loop_sufs_walk (rec : Str → Except RunError SyntaxTree) :
    ∀ (ss : List Meta), (∀ m ∈ ss, plainMetaSuf m = true) →
      ∀ (R : List Token) (w : Word) (pres sufs : List Meta),
        parseCommandLoop rec
          (List.intersperse Token.space (ss.map metaToken) ++ R) (some w)
          pres sufs = parseCommandLoop rec R (some w) pres (sufs ++ ss)
  | [], _, R, w, pres, sufs => by simp
  | [s], hs, R, w, pres, sufs => by
    show parseCommandLoop rec (metaToken s :: R) (some w) pres sufs = _
    rw [loop_suf_step rec (hs s (List.mem_cons_self _ _)) w R pres sufs]
  | s :: s2 :: more, hs, R, w, pres, sufs => by
    have hshape : List.intersperse Token.space
        ((s :: s2 :: more).map metaToken) ++ R =
        metaToken s :: Token.space ::
          (List.intersperse Token.space ((s2 :: more).map metaToken) ++
            R) := by
      simp [intersperse_cons₂]
    rw [hshape, loop_suf_step rec (hs s (List.mem_cons_self _ _)),
      loop_space,
      loop_sufs_walk rec (s2 :: more)
        (fun x hx => hs x (List.mem_cons_of_mem _ hx)) R w pres
        (sufs ++ [s])]
    simp [List.append_assoc]

/-- Walking the name token and the suffix tokens. -/
theorem loop_tail_walk (rec : Str → Except RunError SyntaxTree)
    {c : Command} (hw : plainWordB c.name = true)
    (hne : c.name.name.contains '=' = false)
    (hsuf : ∀ m ∈ c.suffixes, plainMetaSuf m = true)
    (R : List Token) (pres : List Meta) :
    parseCommandLoop rec
      (List.intersperse Token.space (Token.string c.name.name ::
        c.suffixes.map metaToken) ++ R) none pres [] =
      parseCommandLoop rec R (some c.name) pres c.suffixes := by
  cases hS : c.suffixes with
  | nil =>
    show parseCommandLoop rec (Token.string c.name.name :: R) none pres []
      = _
    rw [loop_name_step rec hw hne]
  | cons s ss =>
    have hshape : List.intersperse Token.space (Token.string c.name.name ::
        (s :: ss).map metaToken) ++ R =
        Token.string c.name.name :: Token.space ::
          (List.intersperse Token.space ((s :: ss).map metaToken) ++ R) := by
      simp [intersperse_cons₂]
    rw [hshape, loop_name_step rec hw hne, loop_space,
      loop_sufs_walk rec (s :: ss)
        (fun m hm => hsuf m (by rw [hS]; exact hm)) R c.name pres []]
    rfl

/-- A plain command's canonical tokens (with an optional trailing space)
parse back to exactly that command. -/
theorem parseCommandGiven_replay (rec : Str → Except RunError SyntaxTree)
    {c : Command} (hc : plainCmd c = true) (R : List Token)
    (hR : R = [] ∨ R = [Token.space]) :
    parseCommandGiven rec (cmdTokens c ++ R) = .ok (some c) := by
  have hc' := hc
  simp only [plainCmd, Bool.and_eq_true, Bool.not_eq_true'] at hc'
  have hw : plainWordB c.name = true := hc'.1.1.1
  have hne : c.name.name.contains '=' = false := hc'.1.1.2
  have hpre : ∀ m ∈ c.prefixes, plainMetaPre m = true :=
    List.all_eq_true.mp hc'.1.2
  have hsuf : ∀ m ∈ c.suffixes, plainMetaSuf m = true :=
    List.all_eq_true.mp hc'.2
  have hfin : parseCommandLoop rec R (some c.name) c.prefixes c.suffixes =
      .ok (some c) := by
    rcases hR with rfl | rfl
    · show Except.ok (some (Command.mk c.name c.prefixes c.suffixes)) = _
      rw [command_eta]
    · rw [loop_space]
      show Except.ok (some (Command.mk c.name c.prefixes c.suffixes)) = _
      rw [command_eta]
  show parseCommandLoop rec (cmdTokens c ++ R) none [] [] = .ok (some c)
  rw [show cmdTokens c = List.intersperse Token.space
    (c.prefixes.map metaToken ++ Token.string c.name.name ::
      c.suffixes.map metaToken) from rfl]
  cases hP : c.prefixes with
  | nil =>
    show parseCommandLoop rec
      (List.intersperse Token.space (Token.string c.name.name ::
        c.suffixes.map metaToken) ++ R) none [] [] = .ok (some c)
    rw [loop_tail_walk rec hw hne hsuf R []]
    rw [hP] at hfin
    exact hfin
  | cons p ps =>
    have hApp : List.intersperse Token.space
        ((p :: ps).map metaToken ++ Token.string c.name.name ::
          c.suffixes.map metaToken) =
        List.intersperse Token.space ((p :: ps).map metaToken) ++
          Token.space :: List.intersperse Token.space
            (Token.string c.name.name :: c.suffixes.map metaToken) :=
      intersperse_append Token.space _ _ (by simp) (by simp)
    rw [hApp, List.append_assoc, List.cons_append]
    rw [loop_pres_walk rec (p :: ps)
      (fun m hm => hpre m (by rw [hP]; exact hm)) _ [] []]
    rw [loop_space]
    rw [loop_tail_walk rec hw hne hsuf R ([] ++ (p :: ps))]
    rw [hP] at hfin
    exact hfin

theorem mem_intersperse {α : Type} {sep a : α} :
    ∀ {l : List α}, a ∈ List.intersperse sep l → a = sep ∨ a ∈ l
  | [], h => by cases h
  | [x], h => Or.inr h
  | x :: y :: zs, h => by
    rw [intersperse_cons₂] at h
    rcases List.mem_cons.mp h with rfl | h2
    · exact Or.inr (List.mem_cons_self _ _)
    rcases List.mem_cons.mp h2 with rfl | h3
    · exact Or.inl rfl
    rcases mem_intersperse h3 with h4 | h4
    · exact Or.inl h4
    · exact Or.inr (List.mem_cons_of_mem _ h4)

theorem mem_joinWith {α : Type} {sep : List α} {a : α} :
    ∀ {L : List (List α)}, a ∈ joinWith sep L →
      a ∈ sep ∨ ∃ x ∈ L, a ∈ x
  | [], h => by cases h
  | [x], h => Or.inr ⟨x, List.mem_cons_self _ _, h⟩
  | x :: y :: zs, h => by
    rw [joinWith_cons₂] at h
    rcases List.mem_append.mp h with h1 | h2
    · rcases List.mem_append.mp h1 with ha | hb
      · exact Or.inr ⟨x, List.mem_cons_self _ _, ha⟩
      · exact Or.inl hb
    · rcases mem_joinWith h2 with h3 | ⟨z, hz, h4⟩
      · exact Or.inl h3
      · exact Or.inr ⟨z, List.mem_cons_of_mem _ hz, h4⟩

theorem intersperse_ne_nil {α : Type} (sep : α) {l : List α}
    (hl : l ≠ []) : List.intersperse sep l ≠ [] := by
  cases l with
  | nil => exact absurd rfl hl
  | cons x xs =>
    cases xs with
    | nil => simp
    | cons y ys =>
      rw [intersperse_cons₂]
      simp

theorem metaToken_not_pipe (m : Meta) :
    Token.isPipe (metaToken m) = false := by
  cases m with
  | word w => rfl
  | assignment d v => rfl
  | redirect r =>
    cases r with
    | input t => rfl
    | output src t app => cases src <;> rfl

theorem metaToken_not_semicolon (m : Meta) :
    Token.isSemicolon (metaToken m) = false := by
  cases m with
  | word w => rfl
  | assignment d v => rfl
  | redirect r =>
    cases r with
    | input t => rfl
    | output src t app => cases src <;> rfl

theorem cmdTokens_no_pipe {c : Command} :
    ∀ tok ∈ cmdTokens c, Token.isPipe tok = false := by
  intro tok htok
  rcases mem_intersperse htok with rfl | hmem
  · rfl
  rcases List.mem_append.mp hmem with h1 | h2
  · obtain ⟨m, _, rfl⟩ := List.mem_map.mp h1
    exact metaToken_not_pipe m
  rcases List.mem_cons.mp h2 with rfl | h3
  · rfl
  obtain ⟨m, _, rfl⟩ := List.mem_map.mp h3
  exact metaToken_not_pipe m

theorem cmdTokens_no_semicolon {c : Command} :
    ∀ tok ∈ cmdTokens c, Token.isSemicolon tok = false := by
  intro tok htok
  rcases mem_intersperse htok with rfl | hmem
  · rfl
  rcases List.mem_append.mp hmem with h1 | h2
  · obtain ⟨m, _, rfl⟩ := List.mem_map.mp h1
    exact metaToken_not_semicolon m
  rcases List.mem_cons.mp h2 with rfl | h3
  · rfl
  obtain ⟨m, _, rfl⟩ := List.mem_map.mp h3
  exact metaToken_not_semicolon m

theorem groupTokens_no_semicolon {g : CommandType} :
    ∀ tok ∈ groupTokens g, Token.isSemicolon tok = false := by
  cases g with
  | single c => exact fun tok h => cmdTokens_no_semicolon tok h
  | pipeline cs =>
    intro tok htok
    rcases mem_joinWith htok with hs | ⟨x, hx, hmem⟩
    · rcases List.mem_cons.mp hs with rfl | hs2
      · rfl
      rcases List.mem_cons.mp hs2 with rfl | hs3
      · rfl
      rcases List.mem_cons.mp hs3 with rfl | hs4
      · rfl
      · cases hs4
    · obtain ⟨cm, _, rfl⟩ := List.mem_map.mp hx
      exact cmdTokens_no_semicolon tok hmem

theorem cmdTokens_ne_nil (c : Command) : cmdTokens c ≠ [] := by
  show List.intersperse Token.space
    (c.prefixes.map metaToken ++ Token.string c.name.name ::
      c.suffixes.map metaToken) ≠ []
  apply intersperse_ne_nil
  intro h
  exact absurd (List.append_eq_nil.mp h).2 (by simp)

theorem splitOnPred_no_sep {α : Type} (p : α → Bool) :
    ∀ (l : List α), (∀ a ∈ l, p a = false) → splitOnPred p l = [l]
  | [], _ => rfl
  | a :: as, h => by
    rw [splitOnPred, if_neg (by simp [h a (List.mem_cons_self _ _)]),
      splitOnPred_no_sep p as
        (fun x hx => h x (List.mem_cons_of_mem _ hx))]

theorem splitOnPred_ne_nil {α : Type} (p : α → Bool) :
    ∀ (l : List α), splitOnPred p l ≠ []
  | [] => by simp [splitOnPred]
  | a :: as => by
    rw [splitOnPred]
    by_cases h : p a = true
    · rw [if_pos h]
      simp
    · rw [if_neg h]
      cases hsp : splitOnPred p as with
      | nil => simp
      | cons g gs => simp

theorem splitOnPred_append_sep {α : Type} (p : α → Bool) {x : α}
    (hx : p x = true) :
    ∀ (A B : List α), (∀ a ∈ A, p a = false) →
      splitOnPred p (A ++ x :: B) = A :: splitOnPred p B
  | [], B, _ => by
    rw [List.nil_append, splitOnPred, if_pos hx]
  | a :: A', B, h => by
    rw [List.cons_append, splitOnPred,
      if_neg (by simp [h a (List.mem_cons_self _ _)]),
      splitOnPred_append_sep p hx A' B
        (fun y hy => h y (List.mem_cons_of_mem _ hy))]

theorem preTok_not_pipe {pre : List Token}
    (hpre : pre = [] ∨ pre = [Token.space]) :
    ∀ tok ∈ pre, Token.isPipe tok = false := by
  rcases hpre with rfl | rfl
  · intro tok h
    cases h
  · intro tok h
    rcases List.mem_cons.mp h with rfl | h2
    · rfl
    · cases h2

theorem preTok_not_semicolon {pre : List Token}
    (hpre : pre = [] ∨ pre = [Token.space]) :
    ∀ tok ∈ pre, Token.isSemicolon tok = false := by
  rcases hpre with rfl | rfl
  · intro tok h
    cases h
  · intro tok h
    rcases List.mem_cons.mp h with rfl | h2
    · rfl
    · cases h2

theorem stage_isEmpty_false {pre stage : List Token} (h : stage ≠ []) :
    (pre ++ stage).isEmpty = false := by
  cases hs : pre ++ stage with
  | nil => exact absurd (List.append_eq_nil.mp hs).2 h
  | cons a b => rfl

theorem parseCommandGiven_space (rec : Str → Except RunError SyntaxTree)
    (toks : List Token) :
    parseCommandGiven rec (Token.space :: toks) =
      parseCommandGiven rec toks := rfl

/-- Parsing every pipe-separated stage of a plain pipeline's canonical
tokens (with an optional leading space) recovers the command list. -/
theorem parsePipelineCmds_replay (rec : Str → Except RunError SyntaxTree) :
    ∀ (cs : List Command), cs ≠ [] → (∀ c ∈ cs, plainCmd c = true) →
      ∀ (pre : List Token), (pre = [] ∨ pre = [Token.space]) →
      parsePipelineCmds rec (splitOnPred Token.isPipe
        (pre ++ joinWith [Token.space, Token.pipe, Token.space]
          (cs.map cmdTokens))) = .ok cs
  | [], hne, _, _, _ => absurd rfl hne
  | [c], _, hall, pre, hpre => by
    have hc := hall c (List.mem_cons_self _ _)
    have hnp : ∀ tok ∈ pre ++ joinWith [Token.space, Token.pipe,
        Token.space] ([c].map cmdTokens), Token.isPipe tok = false := by
      intro tok h
      rcases List.mem_append.mp h with h1 | h2
      · exact preTok_not_pipe hpre tok h1
      · exact cmdTokens_no_pipe tok h2
    rw [splitOnPred_no_sep _ _ hnp]
    rw [parsePipelineCmds]
    have hne' : (pre ++ joinWith [Token.space, Token.pipe, Token.space]
        ([c].map cmdTokens)).isEmpty = false :=
      stage_isEmpty_false (cmdTokens_ne_nil c)
    rw [if_neg (by simp only [hne']; decide)]
    have hcg : parseCommandGiven rec (pre ++ joinWith [Token.space,
        Token.pipe, Token.space] ([c].map cmdTokens)) = .ok (some c) := by
      have h0 := parseCommandGiven_replay rec hc [] (Or.inl rfl)
      rw [List.append_nil] at h0
      rcases hpre with rfl | rfl
      · exact h0
      · show parseCommandGiven rec (Token.space :: cmdTokens c) = _
        rw [parseCommandGiven_space]
        exact h0
    rw [hcg]
    rfl
  | c :: c2 :: more, _, hall, pre, hpre => by
    have hc := hall c (List.mem_cons_self _ _)
    have hsh : pre ++ joinWith [Token.space, Token.pipe, Token.space]
        ((c :: c2 :: more).map cmdTokens) =
        (pre ++ (cmdTokens c ++ [Token.space])) ++ Token.pipe ::
          ([Token.space] ++ joinWith [Token.space, Token.pipe, Token.space]
            ((c2 :: more).map cmdTokens)) := by
      rw [List.map_cons, List.map_cons, joinWith_cons₂, ← List.map_cons]
      simp [List.append_assoc]
    have hA : ∀ tok ∈ pre ++ (cmdTokens c ++ [Token.space]),
        Token.isPipe tok = false := by
      intro tok h
      rcases List.mem_append.mp h with h1 | h2
      · exact preTok_not_pipe hpre tok h1
      rcases List.mem_append.mp h2 with h3 | h4
      · exact cmdTokens_no_pipe tok h3
      rcases List.mem_cons.mp h4 with rfl | h5
      · rfl
      · cases h5
    rw [hsh, splitOnPred_append_sep Token.isPipe
      (show Token.isPipe Token.pipe = true from rfl) _ _ hA]
    rw [parsePipelineCmds]
    have hne' : (pre ++ (cmdTokens c ++ [Token.space])).isEmpty = false :=
      stage_isEmpty_false (by simp)
    rw [if_neg (by simp only [hne']; decide)]
    have hcg : parseCommandGiven rec
        (pre ++ (cmdTokens c ++ [Token.space])) = .ok (some c) := by
      have h0 := parseCommandGiven_replay rec hc [Token.space] (Or.inr rfl)
      rcases hpre with rfl | rfl
      · exact h0
      · show parseCommandGiven rec
          (Token.space :: (cmdTokens c ++ [Token.space])) = _
        rw [parseCommandGiven_space]
        exact h0
    rw [hcg]
    have hrec := parsePipelineCmds_replay rec (c2 :: more) (by simp)
      (fun x hx => hall x (List.mem_cons_of_mem _ hx)) [Token.space]
      (Or.inr rfl)
    rw [hrec]

/-- One plain group's pipe-split tokens advance the `parse_tokens` loop
by pushing exactly that `CommandType`. -/
theorem parseTokensLoop_group (rec : Str → Except RunError SyntaxTree)
    {g : CommandType} (hg : plainCT g = true)
    (pre : List Token) (hpre : pre = [] ∨ pre = [Token.space])
    (rest : List (List (List Token))) (acc : List CommandType) :
    parseTokensLoop rec
      (splitOnPred Token.isPipe (pre ++ groupTokens g) :: rest) acc =
      parseTokensLoop rec rest (acc ++ [g]) := by
  cases g with
  | single c =>
    have hnp : ∀ tok ∈ pre ++ groupTokens (.single c),
        Token.isPipe tok = false := by
      intro tok h
      rcases List.mem_append.mp h with h1 | h2
      · exact preTok_not_pipe hpre tok h1
      · exact cmdTokens_no_pipe tok h2
    rw [splitOnPred_no_sep _ _ hnp]
    have hne' : (pre ++ groupTokens (.single c)).isEmpty = false :=
      stage_isEmpty_false (cmdTokens_ne_nil c)
    have hcg : parseCommandGiven rec (pre ++ groupTokens (.single c)) =
        .ok (some c) := by
      have h0 := parseCommandGiven_replay rec hg [] (Or.inl rfl)
      rw [List.append_nil] at h0
      rcases hpre with rfl | rfl
      · exact h0
      · show parseCommandGiven rec (Token.space :: cmdTokens c) = _
        rw [parseCommandGiven_space]
        exact h0
    simp [parseTokensLoop, hne', hcg]
  | pipeline cs =>
    have hg' := hg
    simp only [plainCT, Bool.and_eq_true, decide_eq_true_eq] at hg'
    obtain ⟨hlen, hallb⟩ := hg'
    have hall := List.all_eq_true.mp hallb
    cases cs with
    | nil => simp at hlen
    | cons c1 cs1 =>
      cases cs1 with
      | nil => simp at hlen
      | cons c2 cs' =>
        have hsh : pre ++ groupTokens (.pipeline (c1 :: c2 :: cs')) =
            (pre ++ (cmdTokens c1 ++ [Token.space])) ++ Token.pipe ::
              ([Token.space] ++ joinWith [Token.space, Token.pipe,
                Token.space] ((c2 :: cs').map cmdTokens)) := by
          show pre ++ joinWith [Token.space, Token.pipe, Token.space]
            ((c1 :: c2 :: cs').map cmdTokens) = _
          rw [List.map_cons, List.map_cons, joinWith_cons₂,
            ← List.map_cons]
          simp [List.append_assoc]
        have hA : ∀ tok ∈ pre ++ (cmdTokens c1 ++ [Token.space]),
            Token.isPipe tok = false := by
          intro tok h
          rcases List.mem_append.mp h with h1 | h2
          · exact preTok_not_pipe hpre tok h1
          rcases List.mem_append.mp h2 with h3 | h4
          · exact cmdTokens_no_pipe tok h3
          rcases List.mem_cons.mp h4 with rfl | h5
          · rfl
          · cases h5
        rw [hsh, splitOnPred_append_sep Token.isPipe
          (show Token.isPipe Token.pipe = true from rfl) _ _ hA]
        cases hsp : splitOnPred Token.isPipe
            ([Token.space] ++ joinWith [Token.space, Token.pipe,
              Token.space] ((c2 :: cs').map cmdTokens)) with
        | nil => exact absurd hsp (splitOnPred_ne_nil _ _)
        | cons st2 sts =>
          have hpp : parsePipelineCmds rec
              ((pre ++ (cmdTokens c1 ++ [Token.space])) :: st2 :: sts) =
              .ok (c1 :: c2 :: cs') := by
            rw [← hsp, ← splitOnPred_append_sep Token.isPipe
              (show Token.isPipe Token.pipe = true from rfl) _ _ hA,
              ← hsh]
            exact parsePipelineCmds_replay rec (c1 :: c2 :: cs') (by simp)
              hall pre hpre
          simp [parseTokensLoop, hpp]

/-- Walking all semicolon-separated plain groups through the
`parse_tokens` loop. -/
theorem parseTokensLoop_replay (rec : Str → Except RunError SyntaxTree) :
    ∀ (gs : List CommandType), (∀ g ∈ gs, plainCT g = true) → gs ≠ [] →
      ∀ (pre : List Token), (pre = [] ∨ pre = [Token.space]) →
      ∀ (acc : List CommandType),
      parseTokensLoop rec
        ((splitOnPred Token.isSemicolon
          (pre ++ joinWith [Token.semicolon, Token.space]
            (gs.map groupTokens))).map (splitOnPred Token.isPipe)) acc =
        .ok (acc ++ gs)
  | [], _, hne, _, _, _ => absurd rfl hne
  | [g], hall, _, pre, hpre, acc => by
    have hg := hall g (List.mem_cons_self _ _)
    have hns : ∀ tok ∈ pre ++ joinWith [Token.semicolon, Token.space]
        ([g].map groupTokens), Token.isSemicolon tok = false := by
      intro tok h
      rcases List.mem_append.mp h with h1 | h2
      · exact preTok_not_semicolon hpre tok h1
      · exact groupTokens_no_semicolon tok h2
    rw [splitOnPred_no_sep _ _ hns]
    exact parseTokensLoop_group rec hg pre hpre [] acc
  | g :: g2 :: more, hall, _, pre, hpre, acc => by
    have hg := hall g (List.mem_cons_self _ _)
    have hsh : pre ++ joinWith [Token.semicolon, Token.space]
        ((g :: g2 :: more).map groupTokens) =
        (pre ++ groupTokens g) ++ Token.semicolon ::
          ([Token.space] ++ joinWith [Token.semicolon, Token.space]
            ((g2 :: more).map groupTokens)) := by
      rw [List.map_cons, List.map_cons, joinWith_cons₂, ← List.map_cons]
      simp [List.append_assoc]
    have hA : ∀ tok ∈ pre ++ groupTokens g,
        Token.isSemicolon tok = false := by
      intro tok h
      rcases List.mem_append.mp h with h1 | h2
      · exact preTok_not_semicolon hpre tok h1
      · exact groupTokens_no_semicolon tok h2
    rw [hsh, splitOnPred_append_sep Token.isSemicolon
      (show Token.isSemicolon Token.semicolon = true from rfl) _ _ hA,
      List.map_cons]
    rw [parseTokensLoop_group rec hg pre hpre _ acc]
    rw [parseTokensLoop_replay rec (g2 :: more)
      (fun x hx => hall x (List.mem_cons_of_mem _ hx)) (by simp)
      [Token.space] (Or.inr rfl) (acc ++ [g])]
    simp [List.append_assoc]

/-- A plain tree's canonical token sequence parses back to exactly that
tree, for any command-substitution recursion `rec` (never invoked on
plain input). -/
theorem parseTokensGiven_replay (rec : Str → Except RunError SyntaxTree)
    {t : SyntaxTree} (ht : plainTree t = true) :
    parseTokensGiven rec (treeTokens t) = .ok t := by
  cases t with
  | mk cs =>
    cases cs with
    | nil => rfl
    | cons g gs =>
      have hall : ∀ x ∈ g :: gs, plainCT x = true := List.all_eq_true.mp ht
      have hloop := parseTokensLoop_replay rec (g :: gs) hall (by simp) []
        (Or.inl rfl) []
      show (match parseTokensLoop rec
          ((splitOnPred Token.isSemicolon
            (treeTokens (SyntaxTree.mk (g :: gs)))).map
              (splitOnPred Token.isPipe)) [] with
        | Except.error err => Except.error err
        | Except.ok cs => Except.ok (SyntaxTree.mk cs)) =
        Except.ok (SyntaxTree.mk (g :: gs))
      rw [show treeTokens (SyntaxTree.mk (g :: gs)) =
        [] ++ joinWith [Token.semicolon, Token.space]
          ((g :: gs).map groupTokens) from rfl]
      rw [hloop]
      rfl

/-! ## Claim C9: parse / render idempotence -/

/-- **C9** fails as stated: parsing the line `echo 'a|b'` (a
single-quoted pipe character), rendering the tree via `to_string`, and
re-parsing, yields a tree whose `to_string` is `echo a | b`, which
differs from the first rendering `echo a|b` — `to_string` drops the
quotes, so the re-parse sees a bare pipe and builds a pipeline. -/
theorem parse_render_not_idempotent :
    (parseLine "echo 'a|b'".toList).map SyntaxTree.render =
      .ok "echo a|b".toList ∧
    (parseLine "echo a|b".toList).map SyntaxTree.render =
      .ok "echo a | b".toList ∧
    "echo a | b".toList ≠ "echo a|b".toList :=
  ⟨rfl, rfl, by decide⟩

/-- **C9 (amended).**  For every parsed tree that is plain — every word
made only of unquoted non-operator characters with no expansions, no
whitespace, nonempty names, digit-only redirect sources, pipelines of
length at least two — rendering via `to_string` and re-parsing yields a
tree whose `to_string` equals the first rendering.  (As stated over all
input lines the property fails, because `to_string` drops quotes: see
the counterexample.) -/
theorem parse_render_idempotent_plain {line : Str} {n : Nat}
    {t : SyntaxTree} (_hp : parseIter n line = .ok t)
    (hpl : plainTree t = true) (m : Nat) :
    (parseIter (m + 1) (SyntaxTree.render t)).map SyntaxTree.render =
      .ok (SyntaxTree.render t) := by
  show (parseTokensGiven (parseIter m)
    (lex (SyntaxTree.render t))).map SyntaxTree.render = _
  rw [lex_render hpl, parseTokensGiven_replay (parseIter m) hpl]
  rfl

/-- Witness for C9: the line `echo hello` parses to a plain tree, and
re-parsing its rendering reproduces that rendering. -/
theorem parse_render_idempotent_plain_witness :
    parseIter 11 "echo hello".toList = .ok
      (SyntaxTree.mk [.single (.mk (.mk "echo".toList []) []
        [.word (.mk "hello".toList [])])]) ∧
    plainTree (SyntaxTree.mk [.single (.mk (.mk "echo".toList []) []
        [.word (.mk "hello".toList [])])]) = true ∧
    (parseIter 1 (SyntaxTree.render (SyntaxTree.mk [.single
        (.mk (.mk "echo".toList []) []
          [.word (.mk "hello".toList [])])]))).map SyntaxTree.render =
      .ok (SyntaxTree.render (SyntaxTree.mk [.single (.mk
        (.mk "echo".toList []) [] [.word (.mk "hello".toList [])])])) :=
  ⟨rfl, rfl,
    @parse_render_idempotent_plain "echo hello".toList 11
      (SyntaxTree.mk [.single (.mk (.mk "echo".toList []) []
        [.word (.mk "hello".toList [])])]) rfl rfl 0⟩

/-- **C10.**  `Command::redirections` returns the
`(stdin, stdout, stderr)` triple in which each slot holds the last
matching redirect when scanning prefixes then suffixes in order: any
`Input` redirect sets stdin, an `Output` redirect with `from` `None` or
`"1"` sets stdout, an `Output` redirect with `from = "2"` sets stderr,
and an `Output` redirect with any other `from` sets no slot. -/
theorem redirections_last_match (cmd : Command) :
    cmd.redirections =
      (lastRedirectWhere setsStdin (cmd.prefixes ++ cmd.suffixes),
       lastRedirectWhere setsStdout (cmd.prefixes ++ cmd.suffixes),
       lastRedirectWhere setsStderr (cmd.prefixes ++ cmd.suffixes)) := by
  unfold Command.redirections
  rw [redirLoop_characterization]
  simp [firstSome_none_right]

end Rush
